import Mathlib

/-!
# git-provider-sync: archive target, provider listings and run summary

A shallow embedding of the parts of the repository that the specification's
claims talk about:

* `internal/target/archive.go` (`mapFilesToArchive`, `createArchive`,
  `ArchiveTargetPath`, `nowString`),
* the listing code of the GitHub, GitLab and Gitea bindings,
* `cmd/synccmd/logging.go` (`initTargetSync`, `summary`, `logFailures`).

Go strings are Lean strings, Go `error` values are terms of `GoError`, and a
function returning `(T, error)` returns `Except GoError T`.
-/

set_option autoImplicit false

deriving instance DecidableEq for Except

namespace GitProviderSync

/-! ## Go errors -/

/-- A Go `error` value: `errors.New msg`, or the result of `fmt.Errorf` with one
or two `%w` operands. `msg` is always the full text that `Error()` returns. -/
inductive GoError where
  | new (msg : String)
  | wrap (msg : String) (cause : GoError)
  | wrap2 (msg : String) (first second : GoError)
  deriving DecidableEq, Repr

namespace GoError

/-- The text of `err.Error()`. -/
def Error : GoError → String
  | new m => m
  | wrap m _ => m
  | wrap2 m _ _ => m

/-- The test `errors.Is(err, target)`: `target` is `err` or is reachable from it
through the `%w` operands. -/
def Is (err target : GoError) : Bool :=
  decide (err = target) ||
    match err with
    | new _ => false
    | wrap _ c => Is c target
    | wrap2 _ a b => Is a target || Is b target

end GoError

/-- The verbs `%d` (width 0) and `%0<width>d` of `fmt.Sprintf` on an integer:
sign, then zeros up to the width, then the decimal digits. -/
def fmtInt (width : Nat) (n : Int) : String :=
  let sign : List Char := if n < 0 then ['-'] else []
  let digits : List Char := Nat.toDigits 10 n.natAbs
  ⟨sign ++ List.replicate (width - (sign.length + digits.length)) '0' ++ digits⟩

/-! ## internal/target/archive.go -/

namespace target

def ErrArchiveCompression : GoError := .new "failed to compress archive"
def ErrArchiveCreation : GoError := .new "failed to create archive file"
def ErrDirectoryCreation : GoError := .new "failed to create target directory"
def ErrNoFilesToArchive : GoError := .new "no files found to archive"

/-- A directory tree on disk: a regular file, or a directory with its entries in
the order in which `filepath.WalkDir` visits them. -/
inductive FsNode where
  | file (name : String)
  | dir (name : String) (children : List FsNode)

/-- The disk as the archive code sees it: the tree found at a path, if any. -/
abbrev Disk := String → Option FsNode

/-- One `archiver.File`: where it was found, the name it gets in the archive and
whether it is a directory. -/
structure File where
  nameOnDisk : String
  nameInArchive : String
  isDir : Bool
  deriving DecidableEq, Repr

/-- The name of a directory entry. -/
def FsNode.name : FsNode → String
  | .file n => n
  | .dir n _ => n

mutual
/-- The walk of `archiver.FilesFromDisk` below one root: the node itself is
listed first (directories are entries too), then everything beneath it. -/
def walk (onDisk inArchive : String) : FsNode → List File
  | .file _ => [⟨onDisk, inArchive, false⟩]
  | .dir _ children => ⟨onDisk, inArchive, true⟩ :: walkChildren onDisk inArchive children
/-- The walk over the entries of one directory, in order. -/
def walkChildren (onDisk inArchive : String) : List FsNode → List File
  | [] => []
  | c :: rest =>
      walk (onDisk ++ "/" ++ c.name) (inArchive ++ "/" ++ c.name) c
        ++ walkChildren onDisk inArchive rest
end

mutual
/-- Whether a regular file occurs in the tree. -/
def containsFile : FsNode → Bool
  | .file _ => true
  | .dir _ children => anyContainsFile children
/-- Whether a regular file occurs in one of the trees. -/
def anyContainsFile : List FsNode → Bool
  | [] => false
  | c :: rest => containsFile c || anyContainsFile rest
end

/-- The call `archiver.FilesFromDisk(nil, map[string]string{rootOnDisk: rootInArchive})`
of the archiver library: it fails when nothing is found at the root, and
otherwise lists the root and everything below it, directories included. -/
def FilesFromDisk (disk : Disk) (rootOnDisk rootInArchive : String) :
    Except GoError (List File) :=
  match disk rootOnDisk with
  | none => .error (.new ("lstat " ++ rootOnDisk ++ ": no such file or directory"))
  | some tree => .ok (walk rootOnDisk rootInArchive tree)

/-- The error `fmt.Errorf("%w: %s", ErrNoFilesToArchive, sourceDir)`. -/
def noFilesError (sourceDir : String) : GoError :=
  .wrap (ErrNoFilesToArchive.Error ++ ": " ++ sourceDir) ErrNoFilesToArchive

def mapFilesToArchive (disk : Disk) (sourceDir targetName : String) :
    Except GoError (List File) :=
  match FilesFromDisk disk sourceDir targetName with
  | .error err =>
      .error (.wrap ("failed to map files at " ++ sourceDir ++ " to tar archive: " ++ err.Error) err)
  | .ok files =>
      if files.length ≤ 1 then .error (noFilesError sourceDir) else .ok files

/-- The function `createArchive`; `compress` stands for the file creation and
tar/gzip writing of `compress`, which answers `none` for a nil error. -/
def createArchive (disk : Disk) (compress : String → List File → Option GoError)
    (sourceDir targetArchive name : String) : Option GoError :=
  match mapFilesToArchive disk sourceDir name with
  | .error err => some err
  | .ok files => compress targetArchive files

/-! ### Library functions used by `ArchiveTargetPath` and `nowString` -/

/-- A reading of the clock, as `time.Now()` returns it: the instant in
nanoseconds since the Unix epoch, and the offset east of UTC, in seconds, that
the reading's location (the local time zone of the process) has at that
instant. -/
structure Time where
  unixNano : Int
  offset : Int
  deriving DecidableEq, Repr

namespace Time

/-- The method `t.UTC()`: the same instant, read in UTC. -/
def UTC (t : Time) : Time := { t with offset := 0 }

/-- The method `t.UnixMilli()`: whole milliseconds since the epoch. -/
def UnixMilli (t : Time) : Int := t.unixNano / 1000000

/-- Whole seconds since the epoch, shifted into the location of the reading. -/
def localSec (t : Time) : Int := t.unixNano / 1000000000 + t.offset

/-- Days since 1970-01-01 in the location of the reading. -/
def localDay (t : Time) : Int := t.localSec / 86400

/-- Seconds since midnight in the location of the reading. -/
def secOfDay (t : Time) : Int := t.localSec % 86400

/-- The proleptic Gregorian date (year, month, day) of a day count since
1970-01-01, by eras of 400 years that start on 1 March. -/
def civil (z0 : Int) : Int × Int × Int :=
  let z := z0 + 719468
  let era := z / 146097
  let doe := z % 146097
  let yoe := (doe - doe / 1460 + doe / 36524 - doe / 146096) / 365
  let doy := doe - (365 * yoe + yoe / 4 - yoe / 100)
  let mp := (5 * doy + 2) / 153
  let d := doy - (153 * mp + 2) / 5 + 1
  let m := if mp < 10 then mp + 3 else mp - 9
  (yoe + era * 400 + (if m ≤ 2 then 1 else 0), m, d)

def Year (t : Time) : Int := (civil t.localDay).1
def Month (t : Time) : Int := (civil t.localDay).2.1
def Day (t : Time) : Int := (civil t.localDay).2.2
def Hour (t : Time) : Int := t.secOfDay / 3600
def Minute (t : Time) : Int := t.secOfDay % 3600 / 60
def Second (t : Time) : Int := t.secOfDay % 60

end Time

/-- The elements of a slash-separated path, empty ones included
(`strings.Split(path, "/")`). -/
def splitSlash : List Char → List (List Char)
  | [] => [[]]
  | c :: cs =>
    if c = '/' then [] :: splitSlash cs
    else
      match splitSlash cs with
      | [] => [[c]]
      | seg :: rest => (c :: seg) :: rest

/-- One element of a path meets the elements kept so far (last kept element
first): empty elements and `.` are dropped, `..` removes the element before it,
is dropped at the root, and is kept where there is nothing to remove. -/
def cleanStep (rooted : Bool) (kept : List (List Char)) (elem : List Char) :
    List (List Char) :=
  if elem = [] ∨ elem = ['.'] then kept
  else if elem = ['.', '.'] then
    match kept with
    | [] => if rooted then [] else [elem]
    | top :: below => if top = ['.', '.'] then elem :: kept else below
  else elem :: kept

/-- The characters of `filepath.Clean(path)` on a slash-separated path. -/
def cleanChars (path : List Char) : List Char :=
  let rooted := path.head? == some '/'
  let kept := (splitSlash path).foldl (cleanStep rooted) []
  let out := (if rooted then ['/'] else []) ++ List.intercalate ['/'] kept.reverse
  if out = [] then ['.'] else out

/-- The function `filepath.Clean`. -/
def filepathClean (path : String) : String := ⟨cleanChars path.data⟩

/-- The call `filepath.Join(dir, file)`: empty leading elements are ignored, the
rest is joined with a slash and cleaned. -/
def filepathJoin (dir file : String) : String :=
  if dir ≠ "" then filepathClean (dir ++ "/" ++ file)
  else if file ≠ "" then filepathClean file
  else ""

/-- A character that is a decimal digit or the minus sign. -/
def numeric (c : Char) : Bool := c.isDigit || c == '-'

/-! ### `ArchiveTargetPath` and `nowString` -/

/-- The function `nowString`, at the reading `now` of the clock. -/
def nowString (now : Time) : String :=
  "_" ++ fmtInt 0 now.Year ++ fmtInt 2 now.Month ++ fmtInt 2 now.Day
    ++ "_" ++ fmtInt 2 now.Hour ++ fmtInt 2 now.Minute ++ fmtInt 2 now.Second
    ++ "_" ++ fmtInt 0 now.UnixMilli

/-- The function `ArchiveTargetPath`, at the reading `now` of the clock. -/
def ArchiveTargetPath (name targetDir : String) (now : Time) : String :=
  let tarArchive := name ++ nowString now ++ ".tar.gz"
  filepathJoin targetDir tarArchive

/-- The timestamp the specification describes for a reading of the clock:
`_YYYYMMDD_HHMMSS_<unix-millis>`, the calendar fields zero-padded to four and
two digits, the millisecond count in plain decimal. -/
def specTimestamp (t : Time) : String :=
  "_" ++ fmtInt 4 t.Year ++ fmtInt 2 t.Month ++ fmtInt 2 t.Day
    ++ "_" ++ fmtInt 2 t.Hour ++ fmtInt 2 t.Minute ++ fmtInt 2 t.Second
    ++ "_" ++ fmtInt 0 t.UnixMilli

/-- A reading of the clock at 00:59:59.999 UTC on 27 October 2024, in a zone
that is two hours east of UTC (Central European Summer Time). -/
def tBeforeFallBack : Time := ⟨1729990799999000000, 7200⟩

/-- A reading one nanosecond after `tBeforeFallBack`, in the same zone. -/
def tSameMilli : Time := ⟨1729990799999000001, 7200⟩

/-- A reading one millisecond after `tBeforeFallBack`, when the zone has gone
back to one hour east of UTC (Central European Time). -/
def tAfterFallBack : Time := ⟨1729990800000000000, 3600⟩

/-- A disk that holds, at `/w/repo`, a directory with one empty subdirectory. -/
def diskEmptySubdir : Disk := fun p =>
  if p = "/w/repo" then some (.dir "repo" [.dir "empty" []]) else none

/-- A disk that holds, at `/w/repo`, an empty directory. -/
def diskEmptyDir : Disk := fun p =>
  if p = "/w/repo" then some (.dir "repo" []) else none

/-- A disk that holds, at `/w/repo`, a directory with one file in a subdirectory. -/
def diskOneFile : Disk := fun p =>
  if p = "/w/repo" then some (.dir "repo" [.dir ".git" [.file "HEAD"]]) else none

end target

/-! ## The provider bindings -/

/-- What one run of a listing function did and returned: the `Page` value of
every page request sent to the provider, in order; the repository name of every
detail request, in order; and the returned value, `none` while the pagination
loop is still running when the step budget is used up. -/
structure Listing (α : Type) where
  pages : List Nat
  details : List String
  result : Option (Except GoError α)

namespace model

/-- Modelled from the spec: the struct `model.ProjectInfo` (its declaration is
not among the sources), with the fields the provider bindings set. -/
structure ProjectInfo where
  OriginalName : String
  Description : String
  HTTPSURL : String
  SSHURL : String
  DefaultBranch : String
  LastActivityAt : Option Int
  Visibility : String
  ProjectID : String
  deriving DecidableEq, Repr

/-- The zero value `model.ProjectInfo{}`. -/
def ProjectInfo.zero : ProjectInfo := ⟨"", "", "", "", "", none, "", ""⟩

end model

namespace config

/-- The field `Git` of a provider configuration, as far as the listings read it. -/
structure GitOption where
  IncludeForks : Bool
  deriving DecidableEq, Repr

/-- Modelled from the spec: the struct `config.ProviderConfig` (its declaration
is not among the sources). `IsGroup` holds the answer of the method
`IsGroup()`, whose body is not among the sources either. -/
structure ProviderConfig where
  ProviderType : String
  Domain : String
  User : String
  Group : String
  Git : GitOption
  IsGroup : Bool
  deriving DecidableEq, Repr

end config

/-- The function `strings.Contains` on the characters of two strings. -/
def containsChars (sub : List Char) : List Char → Bool
  | [] => sub.isEmpty
  | c :: cs => sub.isPrefixOf (c :: cs) || containsChars sub cs

/-- The function `strings.Contains`. -/
def stringsContains (s sub : String) : Bool := containsChars sub.data s.data

/-! ### internal/provider/github -/

namespace github

/-- The fields of `github.Repository` that the binding reads; a nil pointer is
`none`. -/
structure Repository where
  Name : Option String
  Fork : Option Bool
  Description : Option String
  CloneURL : Option String
  SSHURL : Option String
  DefaultBranch : Option String
  UpdatedAt : Option Int
  Visibility : Option String
  FullName : Option String
  deriving DecidableEq, Repr

/-- The accessor `GetName` of the client library: the empty string for nil. -/
def Repository.GetName (r : Repository) : String := r.Name.getD ""

structure ListOptions where
  Page : Nat
  PerPage : Nat
  deriving DecidableEq, Repr

structure RepositoryListByOrgOptions where
  Type_ : String
  Sort_ : String
  ListOptions : ListOptions
  deriving DecidableEq, Repr

structure RepositoryListByAuthenticatedUserOptions where
  Visibility : String
  Affiliation : String
  Sort_ : String
  ListOptions : ListOptions
  deriving DecidableEq, Repr

/-- The part of `github.Response` that the binding reads. -/
structure Response where
  NextPage : Nat
  deriving DecidableEq, Repr

/-- The provider behind `p.client.Repositories`: what it answers to each call. -/
structure Client where
  ListByOrg : String → RepositoryListByOrgOptions → Except GoError (List Repository × Response)
  ListByAuthenticatedUser :
    RepositoryListByAuthenticatedUserOptions → Except GoError (List Repository × Response)
  Get : String → String → Except GoError Repository

def getValueOrEmpty (s : Option String) : String :=
  match s with
  | some v => v
  | none => "N/A"

def getTimeOrNil (t : Option Int) : Option Int :=
  match t with
  | some v => some v
  | none => none

/-- The method `ProjectService.newProjectInfo`. -/
def newProjectInfo (p : Client) (cfg : config.ProviderConfig) (name : String) :
    Except GoError model.ProjectInfo :=
  let owner := if !cfg.IsGroup then cfg.User else cfg.Group
  match p.Get owner name with
  | .error err =>
      .error (.wrap ("failed to get projectInfo. name: " ++ name ++ ", err: " ++ err.Error) err)
  | .ok gitHubProject =>
      .ok { OriginalName := name
            Description := getValueOrEmpty gitHubProject.Description
            HTTPSURL := getValueOrEmpty gitHubProject.CloneURL
            SSHURL := getValueOrEmpty gitHubProject.SSHURL
            DefaultBranch := getValueOrEmpty gitHubProject.DefaultBranch
            LastActivityAt := getTimeOrNil gitHubProject.UpdatedAt
            Visibility := getValueOrEmpty gitHubProject.Visibility
            ProjectID := getValueOrEmpty gitHubProject.FullName }

/-- The pagination loop of `getProjectInfos`, the same in both branches: `fetch`
is the list call at a given `opt.Page`, `what` the word that tells the two
error texts apart, `page` the current `opt.Page` and `allRepos` what was
gathered so far. The first component lists the pages requested. -/
def listPages (fetch : Nat → Except GoError (List Repository × Response)) (what : String) :
    Nat → Nat → List Repository → List Nat × Option (Except GoError (List Repository))
  | 0, _, _ => ([], none)
  | fuel + 1, page, allRepos =>
    match fetch page with
    | .error err =>
        ([page], some (.error (.wrap ("failed to list " ++ what ++ " repositories. page: "
          ++ fmtInt 0 page ++ ", err: " ++ err.Error) err)))
    | .ok (repos, resp) =>
        if resp.NextPage = 0 then ([page], some (.ok (allRepos ++ repos)))
        else
          let rest := listPages fetch what fuel resp.NextPage (allRepos ++ repos)
          (page :: rest.1, rest.2)

/-- The list call of the group branch at a given page. -/
def fetchOrg (p : Client) (cfg : config.ProviderConfig) (page : Nat) :
    Except GoError (List Repository × Response) :=
  p.ListByOrg cfg.Group
    { Type_ := if cfg.Git.IncludeForks then "all" else "sources"
      Sort_ := "full_name"
      ListOptions := { Page := page, PerPage := 100 } }

/-- The list call of the user branch at a given page. -/
def fetchUser (p : Client) (page : Nat) : Except GoError (List Repository × Response) :=
  p.ListByAuthenticatedUser
    { Visibility := "all"
      Affiliation := "owner"
      Sort_ := "full_name"
      ListOptions := { Page := page, PerPage := 100 } }

/-- The first half of `getProjectInfos`: all pages of the listing. -/
def listAll (p : Client) (cfg : config.ProviderConfig) (fuel : Nat) :
    List Nat × Option (Except GoError (List Repository)) :=
  if cfg.IsGroup then listPages (fetchOrg p cfg) "org" fuel 0 []
  else listPages (fetchUser p) "user" fuel 0 []

/-- The second loop of `getProjectInfos` over the repositories still to visit,
with the project infos appended so far. The first component lists the names
whose details were requested. -/
def collectInfos (p : Client) (cfg : config.ProviderConfig) :
    List Repository → List model.ProjectInfo → List String × List model.ProjectInfo
  | [], projectinfos => ([], projectinfos)
  | repo :: rest, projectinfos =>
    if !cfg.Git.IncludeForks && repo.Fork == some true then
      collectInfos p cfg rest projectinfos
    else
      match newProjectInfo p cfg repo.GetName with
      | .error _ =>
          let r := collectInfos p cfg rest projectinfos
          (repo.GetName :: r.1, r.2)
      | .ok metainfo =>
          let r := collectInfos p cfg rest (projectinfos ++ [metainfo])
          (repo.GetName :: r.1, r.2)

/-- The method `ProjectService.getProjectInfos`; `fuel` bounds the number of
page requests. -/
def getProjectInfos (p : Client) (cfg : config.ProviderConfig) (fuel : Nat) :
    Listing (List model.ProjectInfo) :=
  match listAll p cfg fuel with
  | (pages, none) => ⟨pages, [], none⟩
  | (pages, some (.error err)) => ⟨pages, [], some (.error err)⟩
  | (pages, some (.ok allRepos)) =>
      let r := collectInfos p cfg allRepos []
      ⟨pages, r.1, some (.ok r.2)⟩

end github

/-! ### internal/provider/gitlab -/

namespace gitlab

abbrev VisibilityValue := String

def PrivateVisibility : VisibilityValue := "private"
def InternalVisibility : VisibilityValue := "internal"
def PublicVisibility : VisibilityValue := "public"

/-- The fields of `gitlab.Project` that the binding reads; `ForkedFromProject`
is `none` for a nil pointer and otherwise names the parent. -/
structure Project where
  Path : String
  ForkedFromProject : Option String
  Description : String
  HTTPURLToRepo : String
  SSHURLToRepo : String
  DefaultBranch : String
  LastActivityAt : Option Int
  Visibility : VisibilityValue
  deriving DecidableEq, Repr

structure ListOptions where
  Page : Nat
  PerPage : Nat
  deriving DecidableEq, Repr

structure ListGroupProjectsOptions where
  OrderBy : Option String
  Sort_ : Option String
  ListOptions : ListOptions
  deriving DecidableEq, Repr

structure ListProjectsOptions where
  Owned : Option Bool
  OrderBy : Option String
  Sort_ : Option String
  ListOptions : ListOptions
  deriving DecidableEq, Repr

/-- The part of `gitlab.Response` that the binding reads. -/
structure Response where
  CurrentPage : Nat
  TotalPages : Nat
  NextPage : Nat
  deriving DecidableEq, Repr

/-- The provider behind `c.rawClient`: what it answers to each call. -/
structure Client where
  ListGroupProjects :
    String → ListGroupProjectsOptions → Except GoError (List Project × Response)
  ListUserProjects : String → ListProjectsOptions → Except GoError (List Project × Response)
  GetProject : String → Except GoError Project

def getProjectPath (cfg : config.ProviderConfig) (name : String) : String :=
  if cfg.IsGroup then cfg.Group ++ "/" ++ name else cfg.User ++ "/" ++ name

def getVisibility (vis : VisibilityValue) : String :=
  if vis = PublicVisibility then "public"
  else if vis = PrivateVisibility then "private"
  else if vis = InternalVisibility then "internal"
  else "public"

/-- The function `newProjectInfo` of the GitLab binding. -/
def newProjectInfo (cfg : config.ProviderConfig) (gitClient : Client) (name : String) :
    Except GoError model.ProjectInfo :=
  let projectPath := getProjectPath cfg name
  match gitClient.GetProject projectPath with
  | .error err =>
      if stringsContains err.Error "404 Not Found" then .ok model.ProjectInfo.zero
      else .error (.wrap ("get gitlab project: " ++ err.Error) err)
  | .ok gitlabProject =>
      .ok { OriginalName := name
            Description := gitlabProject.Description
            HTTPSURL := gitlabProject.HTTPURLToRepo
            SSHURL := gitlabProject.SSHURLToRepo
            DefaultBranch := gitlabProject.DefaultBranch
            LastActivityAt := gitlabProject.LastActivityAt
            Visibility := getVisibility gitlabProject.Visibility
            ProjectID := "" }

/-- The pagination loop of `getRepositoryProjectInfos`, the same in both
branches: `fetch` is the list call at a given `opt.Page`, `what` the word that
tells the two error texts apart. The first component lists the pages
requested. -/
def listPages (fetch : Nat → Except GoError (List Project × Response)) (what : String) :
    Nat → Nat → List Project → List Nat × Option (Except GoError (List Project))
  | 0, _, _ => ([], none)
  | fuel + 1, page, allRepositories =>
    match fetch page with
    | .error err =>
        ([page], some (.error (.wrap ("fetch " ++ what ++ " repositories page "
          ++ fmtInt 0 page ++ ": " ++ err.Error) err)))
    | .ok (repositories, resp) =>
        if resp.CurrentPage ≥ resp.TotalPages then
          ([page], some (.ok (allRepositories ++ repositories)))
        else
          let rest := listPages fetch what fuel resp.NextPage (allRepositories ++ repositories)
          (page :: rest.1, rest.2)

/-- The list call of the group branch at a given page. -/
def fetchGroup (c : Client) (cfg : config.ProviderConfig) (page : Nat) :
    Except GoError (List Project × Response) :=
  c.ListGroupProjects cfg.Group
    { OrderBy := some "name"
      Sort_ := some "asc"
      ListOptions := { Page := page, PerPage := 100 } }

/-- The list call of the user branch at a given page. -/
def fetchUser (c : Client) (cfg : config.ProviderConfig) (page : Nat) :
    Except GoError (List Project × Response) :=
  c.ListUserProjects cfg.User
    { Owned := some true
      OrderBy := some "name"
      Sort_ := some "asc"
      ListOptions := { Page := page, PerPage := 100 } }

/-- The first half of `getRepositoryProjectInfos`: all pages of the listing. -/
def listAll (c : Client) (cfg : config.ProviderConfig) (fuel : Nat) :
    List Nat × Option (Except GoError (List Project)) :=
  if cfg.IsGroup then listPages (fetchGroup c cfg) "group" fuel 0 []
  else listPages (fetchUser c cfg) "user" fuel 0 []

/-- The second loop of `getRepositoryProjectInfos` over the repositories still
to visit, with the project infos appended so far. The first component lists the
names whose details were requested. -/
def collectInfos (c : Client) (cfg : config.ProviderConfig) :
    List Project → List model.ProjectInfo → List String × Except GoError (List model.ProjectInfo)
  | [], projectinfos => ([], .ok projectinfos)
  | repo :: rest, projectinfos =>
    if !cfg.Git.IncludeForks && repo.ForkedFromProject.isSome then
      collectInfos c cfg rest projectinfos
    else
      match newProjectInfo cfg c repo.Path with
      | .error err =>
          ([repo.Path],
            .error (.wrap ("init repository meta for " ++ repo.Path ++ ": " ++ err.Error) err))
      | .ok rm =>
          let r := collectInfos c cfg rest (projectinfos ++ [rm])
          (repo.Path :: r.1, r.2)

/-- The method `Client.getRepositoryProjectInfos`; `fuel` bounds the number of
page requests. -/
def getRepositoryProjectInfos (c : Client) (cfg : config.ProviderConfig) (fuel : Nat) :
    Listing (List model.ProjectInfo) :=
  match listAll c cfg fuel with
  | (pages, none) => ⟨pages, [], none⟩
  | (pages, some (.error err)) => ⟨pages, [], some (.error err)⟩
  | (pages, some (.ok allRepositories)) =>
      let r := collectInfos c cfg allRepositories []
      ⟨pages, r.1, some r.2⟩

end gitlab

/-! ### internal/provider/gitea -/

namespace gitea

/-- The fields of `gitea.Repository` that the binding reads. -/
structure Repository where
  Name : String
  Fork : Bool
  CloneURL : String
  SSHURL : String
  Description : String
  DefaultBranch : String
  Updated : Int
  OwnerVisibility : String
  deriving DecidableEq, Repr

structure ListOptions where
  Page : Int
  PageSize : Int
  deriving DecidableEq, Repr

/-- The provider behind `c.raw`: what it answers to each call. -/
structure Client where
  ListOrgRepos : String → ListOptions → Except GoError (List Repository)
  ListUserRepos : String → ListOptions → Except GoError (List Repository)
  GetRepo : String → String → Except GoError Repository

/-- The function `newProjectInfo` of the Gitea binding. -/
def newProjectInfo (cfg : config.ProviderConfig) (rawClient : Client) (repositoryName : String) :
    Except GoError model.ProjectInfo :=
  let owner := if !cfg.IsGroup then cfg.User else cfg.Group
  match rawClient.GetRepo owner repositoryName with
  | .error err =>
      .error (.wrap ("failed to get project info for " ++ repositoryName ++ ": " ++ err.Error) err)
  | .ok giteaProject =>
      .ok { OriginalName := repositoryName
            HTTPSURL := giteaProject.CloneURL
            SSHURL := giteaProject.SSHURL
            Description := giteaProject.Description
            DefaultBranch := giteaProject.DefaultBranch
            LastActivityAt := some giteaProject.Updated
            Visibility := giteaProject.OwnerVisibility
            ProjectID := "" }

/-- The loop of `ProjectInfos` over the repositories still to visit, with the
project infos appended so far; a failed detail call leaves the zero value in
`rm`, which is appended all the same. -/
def collectInfos (c : Client) (cfg : config.ProviderConfig) :
    List Repository → List model.ProjectInfo → List model.ProjectInfo
  | [], projectinfos => projectinfos
  | repo :: rest, projectinfos =>
    if !cfg.Git.IncludeForks && repo.Fork then collectInfos c cfg rest projectinfos
    else
      let rm :=
        match newProjectInfo cfg c repo.Name with
        | .error _ => model.ProjectInfo.zero
        | .ok info => info
      collectInfos c cfg rest (projectinfos ++ [rm])

/-- The method `APIClient.ProjectInfos`; `filterService` stands for
`c.filterService.FilterProjectinfos`. -/
def ProjectInfos (c : Client)
    (filterService : List model.ProjectInfo → Except GoError (List model.ProjectInfo))
    (cfg : config.ProviderConfig) (filtering : Bool) : Except GoError (List model.ProjectInfo) :=
  let listed :=
    if cfg.IsGroup then c.ListOrgRepos cfg.Group { Page := -1, PageSize := -1 }
    else c.ListUserRepos cfg.User { Page := -1, PageSize := -1 }
  match listed with
  | .error err => .error (.wrap ("failed to fetch repositories: " ++ err.Error) err)
  | .ok repositories =>
      let projectinfos := collectInfos c cfg repositories []
      if filtering then filterService projectinfos else .ok projectinfos

end gitea

/-! ### Providers used as examples -/

/-- The value of `opt.Page` in the request for the page with index `i`
(counted from 0): the first request leaves `Page` at its zero value, the
request for the page numbered `i + 1` carries that number. -/
def pageParam (i : Nat) : Nat := if i = 0 then 0 else i + 1

/-- A user-scoped configuration that leaves forks out. -/
def userCfg : config.ProviderConfig :=
  { ProviderType := "github", Domain := "", User := "alice", Group := "",
    Git := { IncludeForks := false }, IsGroup := false }

/-- A group-scoped configuration that leaves forks out. -/
def groupCfg : config.ProviderConfig :=
  { ProviderType := "github", Domain := "", User := "", Group := "acme",
    Git := { IncludeForks := false }, IsGroup := true }

/-- A GitHub repository with the given name and fork flag. -/
def ghRepo (name : String) (fork : Bool) : github.Repository :=
  { Name := some name, Fork := some fork, Description := none, CloneURL := none,
    SSHURL := none, DefaultBranch := some "main", UpdatedAt := none, Visibility := none,
    FullName := none }

/-- A GitHub provider that serves the given pages, page `i + 1` on a request for
`pageParam i`, and knows the details of every repository except those named
`down`. -/
def ghServer (pages : List (List github.Repository)) (down : String) : github.Client :=
  let serve : Nat → Except GoError (List github.Repository × github.Response) := fun page =>
    let i := page - 1
    .ok (pages.getD i [], ⟨if i + 1 < pages.length then i + 2 else 0⟩)
  { ListByOrg := fun _ opt => serve opt.ListOptions.Page
    ListByAuthenticatedUser := fun opt => serve opt.ListOptions.Page
    Get := fun _ name =>
      if name = down then .error (.new "502 Bad Gateway") else .ok (ghRepo name false) }

/-- A GitLab project with the given path, forked from `parent` if there is one. -/
def glProject (path : String) (parent : Option String) : gitlab.Project :=
  { Path := path, ForkedFromProject := parent, Description := "", HTTPURLToRepo := "",
    SSHURLToRepo := "", DefaultBranch := "main", LastActivityAt := none,
    Visibility := "private" }

/-- A GitLab provider that lists the given projects on one page and knows the
details of every project except the one at the path `gone`, for which it
answers with the error `missingErr`. -/
def glServer (projects : List gitlab.Project) (gone : String) (missingErr : GoError) :
    gitlab.Client :=
  { ListGroupProjects := fun _ _ => .ok (projects, ⟨1, 1, 0⟩)
    ListUserProjects := fun _ _ => .ok (projects, ⟨1, 1, 0⟩)
    GetProject := fun path =>
      if path = gone then .error missingErr else .ok (glProject path none) }

/-- A Gitea repository with the given name and fork flag. -/
def teaRepo (name : String) (fork : Bool) : gitea.Repository :=
  { Name := name, Fork := fork, CloneURL := "", SSHURL := "", Description := "",
    DefaultBranch := "main", Updated := 0, OwnerVisibility := "public" }

/-- A Gitea provider that lists the given repositories and knows the details of
every repository except the one named `down`. -/
def teaServer (repos : List gitea.Repository) (down : String) : gitea.Client :=
  { ListOrgRepos := fun _ _ => .ok repos
    ListUserRepos := fun _ _ => .ok repos
    GetRepo := fun _ name =>
      if name = down then .error (.new "500 Internal Server Error")
      else .ok (teaRepo name false) }

/-- Three repositories, the second a fork, as GitHub lists them. -/
def ghListed : List github.Repository :=
  [ghRepo "alpha" false, ghRepo "beta-fork" true, ghRepo "gamma" false]

/-- Three projects, the second a fork, as GitLab lists them. -/
def glListed : List gitlab.Project :=
  [glProject "alpha" none, glProject "beta-fork" (some "upstream/beta"), glProject "gamma" none]

/-- Three repositories, the second a fork, as Gitea lists them. -/
def teaListed : List gitea.Repository :=
  [teaRepo "alpha" false, teaRepo "beta-fork" true, teaRepo "gamma" false]

/-- Three pages of one repository each, as GitHub serves them. -/
def ghThreePages : List (List github.Repository) :=
  [[ghRepo "alpha" false], [ghRepo "beta" false], [ghRepo "gamma" false]]

/-- A GitHub provider that answers every call with an error. -/
def ghUnreachable : github.Client :=
  { ListByOrg := fun _ _ => .error (.new "dial tcp: connection refused")
    ListByAuthenticatedUser := fun _ => .error (.new "dial tcp: connection refused")
    Get := fun _ _ => .error (.new "dial tcp: connection refused") }

/-! ## cmd/synccmd/logging.go -/

namespace model

/-- A Go `map[string][]string` as the list of its bindings; where a key occurs
more than once the first binding is the one in the map. -/
abbrev FailMap := List (String × List String)

/-- The keys of the map, each once. -/
def FailMap.keys : FailMap → List String
  | [] => []
  | (k, _) :: rest => k :: (FailMap.keys rest).filter (fun k2 => k2 != k)

/-- The builtin `len` on the map. -/
def FailMap.len (m : FailMap) : Nat := (FailMap.keys m).length

/-- The index expression `m[key]`: the nil slice for a key that is not there. -/
def FailMap.get (m : FailMap) (key : String) : List String :=
  match m.lookup key with
  | some v => v
  | none => []

/-- Modelled from the spec: the struct `model.SyncRunMetainfo` (its declaration
is not among the sources), with the two fields the specification names:
`Total`, the count of repositories considered, and `Fail`, the mapping from
failure category to repository names. -/
structure SyncRunMetainfo where
  Total : Nat
  Fail : FailMap
  deriving DecidableEq, Repr

/-- Modelled from the spec: the constructor `model.NewSyncRunMetainfo` (not
among the sources). The specification builds the run metainfo with `Total`
equal to the repository count, which is the last argument of the call in
`initTargetSync`; no failure is recorded yet. -/
def NewSyncRunMetainfo (_nodeID : Nat) (_sourceDomain _targetType : String) (total : Nat) :
    SyncRunMetainfo :=
  { Total := total, Fail := [] }

end model

namespace synccmd

/-- The keys under which values are attached to a `context.Context`. -/
inductive CtxKey where
  | SyncRunMetainfoKey
  | other (name : String)
  deriving DecidableEq, Repr

/-- The values attached to a context: a `*model.SyncRunMetainfo`, or a value of
another type. -/
inductive CtxValue where
  | syncRunMetainfo (m : model.SyncRunMetainfo)
  | other (v : String)
  deriving DecidableEq, Repr

/-- A `context.Context` as the list of its values, the innermost first. -/
abbrev Context := List (CtxKey × CtxValue)

/-- The function `context.WithValue`. -/
def WithValue (ctx : Context) (key : CtxKey) (val : CtxValue) : Context := (key, val) :: ctx

/-- The method `ctx.Value`. -/
def Value (ctx : Context) (key : CtxKey) : Option CtxValue := ctx.lookup key

/-- A field of a log event. -/
inductive FieldValue where
  | str (s : String)
  | int (n : Int)
  | strs (l : List String)
  deriving DecidableEq, Repr

/-- A log event handed to the logger: level, fields in order, message. -/
structure LogEvent where
  level : String
  fields : List (String × FieldValue)
  msg : String
  deriving DecidableEq, Repr

/-- What a logging function did: the events it handed to the logger and the
errors it handed to `model.HandleError`. -/
structure Output where
  events : List LogEvent
  handled : List GoError
  deriving DecidableEq, Repr

/-- The sentinel `ErrMissingSyncRunMeta` of the package; its declaration, and
so its text, is not among the sources. -/
def ErrMissingSyncRunMeta : GoError := .new "ErrMissingSyncRunMeta"

/-- What `logTargetInfo` uses that is not among the sources: the constants
`gpsconfig.DIRECTORY` and `gpsconfig.ARCHIVE`, the two path methods of a
provider configuration, and `strings.ToLower`. -/
structure TargetNames where
  DIRECTORY : String
  ARCHIVE : String
  DirectoryTargetDir : config.ProviderConfig → String
  ArchiveTargetDir : config.ProviderConfig → String
  ToLower : String → String

/-- A repository handed to the sync: only its number matters here. -/
structure GitRepository where
  ProjectInfo : model.ProjectInfo
  deriving DecidableEq, Repr

def formatUserGroup (user group : String) : String := user ++ "/" ++ group

def logTargetInfo (names : TargetNames) (target : config.ProviderConfig) : List LogEvent :=
  if names.ToLower target.ProviderType = names.DIRECTORY then
    [⟨"info", [("directory", .str (names.DirectoryTargetDir target))], "targeting"⟩]
  else if names.ToLower target.ProviderType = names.ARCHIVE then
    [⟨"info", [("archive directory", .str (names.ArchiveTargetDir target))], "targeting"⟩]
  else
    [⟨"info", [("provider", .str target.ProviderType), ("domain", .str target.Domain),
      ("usr/group", .str (formatUserGroup target.User target.Group))], "targeting"⟩]

def logSyncStart (names : TargetNames) (source target : config.ProviderConfig) : List LogEvent :=
  let userGroup := formatUserGroup source.User source.Group
  [⟨"info", [("domain", .str source.Domain), ("usr/group", .str userGroup)], "syncing from"⟩]
    ++ logTargetInfo names target

/-- The function `initTargetSync`: the returned context and the events logged. -/
def initTargetSync (names : TargetNames) (ctx : Context)
    (sourceProvider targetProvider : config.ProviderConfig)
    (repositories : List GitRepository) : Context × List LogEvent :=
  let m := model.NewSyncRunMetainfo 0 sourceProvider.Domain targetProvider.ProviderType
    repositories.length
  let ctx := WithValue ctx .SyncRunMetainfoKey (.syncRunMetainfo m)
  (ctx, logSyncStart names sourceProvider targetProvider)

def logFailures (m : model.SyncRunMetainfo) : List LogEvent :=
  if m.Fail.len = 0 then []
  else
    (if (m.Fail.get "invalid").length > 0 then
      [⟨"info", [("count", .int (m.Fail.get "invalid").length),
        ("repositories", .strs (m.Fail.get "invalid"))],
        "skipped repositories due to invalid naming"⟩]
    else [])
    ++
    (if (m.Fail.get "uptodate").length > 0 then
      [⟨"info", [("count", .int (m.Fail.get "uptodate").length),
        ("repositories", .strs (m.Fail.get "uptodate"))],
        "ignored up-to-date repositories"⟩]
    else [])

/-- The event in which `summary` reports the total. -/
def totalEvent (total : Nat) : LogEvent :=
  ⟨"info", [], "sync request: " ++ fmtInt 0 total ++ " repositories"⟩

def summary (ctx : Context) (sourceProvider : config.ProviderConfig) : Output :=
  let userGroup := formatUserGroup sourceProvider.User sourceProvider.Group
  match Value ctx .SyncRunMetainfoKey with
  | some (.syncRunMetainfo m) =>
      { events :=
          [⟨"info", [("domain", .str sourceProvider.Domain), ("usr/group", .str userGroup)],
            "completed sync run"⟩,
           totalEvent m.Total] ++ logFailures m
        handled := [] }
  | _ => { events := [], handled := [ErrMissingSyncRunMeta] }

/-- Names for the two local target kinds. -/
def targetNames : TargetNames :=
  { DIRECTORY := "directory", ARCHIVE := "archive",
    DirectoryTargetDir := fun _ => "/srv/mirror", ArchiveTargetDir := fun _ => "/srv/archive",
    ToLower := fun s => s }

/-- A run metainfo with one failure, recorded under a category that is neither
`invalid` nor `uptodate`. -/
def metaPushFailed : model.SyncRunMetainfo :=
  { Total := 2, Fail := [("push", ["repo-a"])] }

/-- A run metainfo with one repository skipped for its name. -/
def metaInvalid : model.SyncRunMetainfo :=
  { Total := 2, Fail := [("invalid", ["repo-a"])] }

end synccmd

namespace synccmd

/-- The records the run summary owes to one failure category: none when the
list recorded under the category is empty, and otherwise one record with the
length of the list as `count` and the list itself, in its recorded order, as
`repositories`. -/
def categoryRecord (m : model.SyncRunMetainfo) (category msg : String) : List LogEvent :=
  match m.Fail.get category with
  | [] => []
  | name :: names =>
      [⟨"info", [("count", .int (name :: names).length),
        ("repositories", .strs (name :: names))], msg⟩]

/-- A run metainfo with two repositories skipped for their names and one that
was up to date. -/
def metaBoth : model.SyncRunMetainfo :=
  { Total := 5, Fail := [("uptodate", ["repo-c"]), ("invalid", ["repo-b", "repo-a"])] }

end synccmd

namespace model

/-- Modelled from the spec: the struct `model.PushOption` (its declaration is
not among the sources), a transfer directive of which the archive target reads
the target location alone. -/
structure PushOption where
  Target : String
  deriving DecidableEq, Repr

end model

namespace target

/-- The function `strings.TrimSuffix`. -/
def stringsTrimSuffix (s suffix : String) : String :=
  if suffix.data.isSuffixOf s.data then ⟨s.data.take (s.data.length - suffix.data.length)⟩
  else s

/-- The function `filepath.Dir`: everything up to the last slash, cleaned. -/
def filepathDir (path : String) : String :=
  filepathClean ⟨(path.data.reverse.dropWhile (fun c => c != '/')).reverse⟩

/-- The function `getSourceDirPath`; `mkdirAll` stands for `os.MkdirAll` with
`os.ModePerm` and answers `none` for a nil error. -/
def getSourceDirPath (mkdirAll : String → Option GoError) (opt : model.PushOption) :
    Except GoError String :=
  let sourceDir := stringsTrimSuffix opt.Target ".tar.gz"
  match mkdirAll (filepathDir sourceDir) with
  | some err =>
      .error (.wrap2 (ErrDirectoryCreation.Error ++ ": " ++ filepathDir sourceDir ++ ": "
        ++ err.Error) ErrDirectoryCreation err)
  | none => .ok sourceDir

end target

/-! ## Creating repositories -/

namespace model

/-- Modelled from the spec: the struct `model.CreateProjectOption` (its
declaration is not among the sources), with the fields that GitHub
`createProject` reads. -/
structure CreateProjectOption where
  RepositoryName : String
  Visibility : String
  Description : String
  DefaultBranch : String
  Disabled : Bool
  deriving DecidableEq, Repr

/-- Modelled from the spec: the struct `model.CreateOption` (its declaration is
not among the sources), with the fields that GitLab `Create` reads. -/
structure CreateOption where
  RepositoryName : String
  Visibility : String
  Description : String
  DefaultBranch : String
  CIEnabled : Bool
  deriving DecidableEq, Repr

end model

/-- Whether two characters are equal under case folding, for the letters of
ASCII. -/
def foldEq (a b : Char) : Bool := a == b || a.toLower == b.toLower

/-- The loop of `strings.EqualFold` over the characters of the two strings. -/
def equalFoldChars : List Char → List Char → Bool
  | [], [] => true
  | a :: s, b :: t => foldEq a b && equalFoldChars s t
  | _, _ => false

/-- The function `strings.EqualFold`, with the case folding of the ASCII
letters; no letter of `private` has a case variant outside ASCII. -/
def stringsEqualFold (s t : String) : Bool := equalFoldChars s.data t.data

namespace github

/-- The fields of `github.Repository` that the options builder writes; a nil
pointer is `none`. -/
structure RepositoryOptions where
  Name : Option String
  AllowForking : Option Bool
  Private : Option Bool
  DefaultBranch : Option String
  Description : Option String
  HasIssues : Option Bool
  HasWiki : Option Bool
  HasPages : Option Bool
  HasProjects : Option Bool
  HasDownloads : Option Bool
  AllowSquashMerge : Option Bool
  AllowMergeCommit : Option Bool
  AllowRebaseMerge : Option Bool
  DeleteBranchOnMerge : Option Bool
  AllowAutoMerge : Option Bool
  AllowUpdateBranch : Option Bool
  deriving DecidableEq, Repr

/-- The state behind the pointer `*ProjectOptionsBuilder`. -/
structure ProjectOptionsBuilder where
  opts : RepositoryOptions
  deriving DecidableEq, Repr

def NewProjectOptionsBuilder : ProjectOptionsBuilder :=
  { opts :=
      { Name := none, AllowForking := none, Private := none, DefaultBranch := none,
        Description := none, HasIssues := none, HasWiki := none, HasPages := none,
        HasProjects := none, HasDownloads := none, AllowSquashMerge := none,
        AllowMergeCommit := none, AllowRebaseMerge := none, DeleteBranchOnMerge := none,
        AllowAutoMerge := none, AllowUpdateBranch := none } }

/-- The method `basicOpts`: the builder after the call. -/
def ProjectOptionsBuilder.basicOpts (p : ProjectOptionsBuilder)
    (visibility name description defaultBranch : String) : ProjectOptionsBuilder :=
  let isPrivate := if stringsEqualFold visibility "private" then true else false
  { opts :=
      { p.opts with
        Name := some name
        AllowForking := some true
        Private := some isPrivate
        DefaultBranch := some defaultBranch
        Description := some description } }

/-- The method `disableFeatures`: the builder after the call. -/
def ProjectOptionsBuilder.disableFeatures (p : ProjectOptionsBuilder) : ProjectOptionsBuilder :=
  { opts :=
      { p.opts with
        HasIssues := some false
        HasWiki := some false
        HasPages := some false
        HasProjects := some false
        HasDownloads := some false
        AllowSquashMerge := some false
        AllowMergeCommit := some false
        AllowRebaseMerge := some false
        DeleteBranchOnMerge := some false
        AllowAutoMerge := some false
        AllowUpdateBranch := some false } }

/-- What one call of `createProject` did: the builder it leaves behind the
pointer `p.optBuilder`, the owner and the options it handed to
`Repositories.Create`, and what it returned. -/
structure CreateCall where
  builder : ProjectOptionsBuilder
  groupName : String
  sent : RepositoryOptions
  result : Except GoError String

/-- The method `ProjectService.createProject`, called with the builder in the
state `builder`; `create` stands for `p.client.Repositories.Create` and
answers with the full name of the created repository. -/
def createProject (create : String → RepositoryOptions → Except GoError String)
    (builder : ProjectOptionsBuilder) (cfg : config.ProviderConfig)
    (opt : model.CreateProjectOption) : CreateCall :=
  let b1 := builder.basicOpts opt.Visibility opt.RepositoryName opt.Description opt.DefaultBranch
  let b2 := if opt.Disabled then b1.disableFeatures else b1
  let groupName := if cfg.IsGroup then cfg.Group else ""
  match create groupName b2.opts with
  | .error err =>
      { builder := b2, groupName := groupName, sent := b2.opts
        result := .error (.wrap ("create: failed to create project. name: "
          ++ opt.RepositoryName ++ ", err: " ++ err.Error) err) }
  | .ok fullName => { builder := b2, groupName := groupName, sent := b2.opts, result := .ok fullName }

/-- The options sent by successive calls of `createProject` on one
`ProjectService` whose builder starts in the state `builder`. -/
def sentOptions (create : String → RepositoryOptions → Except GoError String)
    (cfg : config.ProviderConfig) :
    ProjectOptionsBuilder → List model.CreateProjectOption → List RepositoryOptions
  | _, [] => []
  | builder, opt :: rest =>
      (createProject create builder cfg opt).sent
        :: sentOptions create cfg (createProject create builder cfg opt).builder rest

/-- A request for a plain private repository. -/
def optPlain : model.CreateProjectOption :=
  { RepositoryName := "site", Visibility := "private", Description := "web site",
    DefaultBranch := "main", Disabled := false }

/-- A request for a repository with its features disabled. -/
def optDisabled : model.CreateProjectOption :=
  { RepositoryName := "attic", Visibility := "private", Description := "old code",
    DefaultBranch := "main", Disabled := true }

/-- A GitHub that creates whatever it is asked to. -/
def createAlways : String → RepositoryOptions → Except GoError String :=
  fun owner opts => .ok (owner ++ "/" ++ opts.Name.getD "")

end github

namespace gitlab

/-- The fields of `gitlab.Group` that matter to the namespace lookup. -/
structure Group where
  ID : Int
  Name : String
  Path : String
  FullPath : String
  deriving DecidableEq, Repr

structure ListGroupsOptions where
  Search : Option String
  deriving DecidableEq, Repr

abbrev AccessControlValue := String

def DisabledAccessControl : AccessControlValue := "disabled"
def PrivateAccessControl : AccessControlValue := "private"

/-- The fields of `gitlab.CreateProjectOptions` that `Create` sets. -/
structure CreateProjectOptions where
  Name : Option String
  Description : Option String
  DefaultBranch : Option String
  Visibility : Option VisibilityValue
  NamespaceID : Option Int
  BuildsAccessLevel : Option AccessControlValue
  deriving DecidableEq, Repr

/-- The calls of `c.rawClient` that `Create` makes. A failed `ListGroups` comes
with the status code of the response, `none` when there is no response. -/
structure CreateClient where
  ListGroups : ListGroupsOptions → Except (GoError × Option Nat) (List Group)
  CreateProject : CreateProjectOptions → Except GoError Unit

def toVisibility (vis : String) : VisibilityValue :=
  if vis = "private" then PrivateVisibility
  else if vis = "internal" then InternalVisibility
  else PublicVisibility

/-- The constant `http.StatusUnauthorized`. -/
def StatusUnauthorized : Nat := 401

/-- The method `Client.getNamespaceID`. -/
def getNamespaceID (c : CreateClient) (cfg : config.ProviderConfig) : Except GoError Int :=
  if !cfg.IsGroup then .ok 0
  else
    match c.ListGroups { Search := some cfg.Group } with
    | .error (err, status) =>
        if status = some StatusUnauthorized then
          .error (.new "authentication failed: please check your token permissions")
        else .error (.wrap ("search for group: " ++ err.Error) err)
    | .ok groups =>
        match groups with
        | [] => .error (.new ("no group found with name: " ++ cfg.Group))
        | first :: _ => .ok first.ID

/-- The method `Client.Create`: the options handed to `CreateProject`, if it
was called, and the returned error, `none` for nil. -/
def Create (c : CreateClient) (cfg : config.ProviderConfig) (opt : model.CreateOption) :
    List CreateProjectOptions × Option GoError :=
  match getNamespaceID c cfg with
  | .error err => ([], some (.wrap ("get namespace ID: " ++ err.Error) err))
  | .ok namespaceID =>
      let projectOpts : CreateProjectOptions :=
        { Name := some opt.RepositoryName
          Description := some opt.Description
          DefaultBranch := some opt.DefaultBranch
          Visibility := some (toVisibility opt.Visibility)
          NamespaceID := if namespaceID ≠ 0 then some namespaceID else none
          BuildsAccessLevel :=
            some (if opt.CIEnabled then PrivateAccessControl else DisabledAccessControl) }
      match c.CreateProject projectOpts with
      | .error err =>
          ([projectOpts],
            some (.wrap ("failed to create " ++ opt.RepositoryName ++ ": " ++ err.Error) err))
      | .ok _ => ([projectOpts], none)

/-- A GitLab whose group search for `acme` answers with the group
`acme-archive` before the group `acme`. -/
def glTwoGroups : CreateClient :=
  { ListGroups := fun _ =>
      .ok [⟨7, "acme-archive", "acme-archive", "acme-archive"⟩, ⟨3, "acme", "acme", "acme"⟩]
    CreateProject := fun _ => .ok () }

/-- A GitLab whose group search finds nothing. -/
def glNoGroups : CreateClient :=
  { ListGroups := fun _ => .ok [], CreateProject := fun _ => .ok () }

/-- A request for a private repository without CI. -/
def createSite : model.CreateOption :=
  { RepositoryName := "site", Visibility := "private", Description := "web site",
    DefaultBranch := "main", CIEnabled := false }

end gitlab

/-! # Theorems -/

namespace target

theorem walk_ne_nil (onDisk inArchive : String) (t : FsNode) :
    walk onDisk inArchive t ≠ [] := by
  cases t <;> simp [walk]

theorem walkChildren_ne_nil (onDisk inArchive : String) (cs : List FsNode) (h : cs ≠ []) :
    walkChildren onDisk inArchive cs ≠ [] := by
  cases cs with
  | nil => exact absurd rfl h
  | cons c rest => simp [walkChildren, walk_ne_nil]

theorem anyContainsFile_ne_nil (cs : List FsNode) (h : anyContainsFile cs = true) : cs ≠ [] := by
  cases cs with
  | nil => simp [anyContainsFile] at h
  | cons c rest => simp

theorem walk_dir_length (onDisk inArchive n : String) (cs : List FsNode) :
    (walk onDisk inArchive (.dir n cs)).length = 1 + (walkChildren onDisk inArchive cs).length := by
  simp [walk, Nat.add_comm]

theorem lstat_ne_noFiles (s : String) :
    GoError.new ("lstat " ++ s ++ ": no such file or directory") ≠ ErrNoFilesToArchive := by
  intro h
  have h1 := congrArg String.data (GoError.new.inj h)
  simp [String.data_append] at h1

/-- C1 (as stated, refuted): a source directory that holds only an empty
subdirectory is mapped to two entries, the root and the subdirectory, and
`mapFilesToArchive` accepts it; `createArchive` goes on to compress them. -/
theorem mapFilesToArchive_emptySubdir_accepted :
    mapFilesToArchive diskEmptySubdir "/w/repo" "repo" =
        .ok [⟨"/w/repo", "repo", true⟩, ⟨"/w/repo/empty", "repo/empty", true⟩] ∧
      createArchive diskEmptySubdir (fun _ _ => none) "/w/repo" "/w/repo.tar.gz" "repo" = none := by
  constructor <;> rfl

/-- C1 (amended): for every source directory that is empty, `mapFilesToArchive`
fails with an error wrapping `ErrNoFilesToArchive`, and so does `createArchive`
whatever the compression step would do; the entry list is the one
`FilesFromDisk` produces, which lists the root directory alone. -/
theorem mapFilesToArchive_emptyDir_fails (disk : Disk)
    (compress : String → List File → Option GoError)
    (sourceDir targetArchive name n : String)
    (hdisk : disk sourceDir = some (.dir n [])) :
    FilesFromDisk disk sourceDir name = .ok [⟨sourceDir, name, true⟩] ∧
      mapFilesToArchive disk sourceDir name = .error (noFilesError sourceDir) ∧
      createArchive disk compress sourceDir targetArchive name = some (noFilesError sourceDir) ∧
      (noFilesError sourceDir).Is ErrNoFilesToArchive = true := by
  have h1 : FilesFromDisk disk sourceDir name = .ok [⟨sourceDir, name, true⟩] := by
    simp [FilesFromDisk, hdisk, walk, walkChildren]
  have h2 : mapFilesToArchive disk sourceDir name = .error (noFilesError sourceDir) := by
    simp [mapFilesToArchive, h1]
  refine ⟨h1, h2, ?_, ?_⟩
  · simp [createArchive, h2]
  · simp [noFilesError, GoError.Is]

theorem mapFilesToArchive_emptyDir_fails_witness :
    diskEmptyDir "/w/repo" = some (.dir "repo" []) ∧
      mapFilesToArchive diskEmptyDir "/w/repo" "repo" = .error (noFilesError "/w/repo") :=
  ⟨rfl, (mapFilesToArchive_emptyDir_fails diskEmptyDir (fun _ _ => none)
    "/w/repo" "/w/repo.tar.gz" "repo" "repo" rfl).2.1⟩

/-- C2: for every source directory that contains at least one file,
`mapFilesToArchive` succeeds and returns exactly the entry list of the disk
mapping, unchanged and in the same order; and whenever it fails with an error
wrapping `ErrNoFilesToArchive`, the disk mapping succeeded with at most one
entry. -/
theorem mapFilesToArchive_ok_of_file (disk : Disk) (sourceDir targetName n : String)
    (children : List FsNode)
    (hdisk : disk sourceDir = some (.dir n children))
    (hfile : anyContainsFile children = true) :
    FilesFromDisk disk sourceDir targetName
        = .ok (walk sourceDir targetName (.dir n children)) ∧
      mapFilesToArchive disk sourceDir targetName
        = .ok (walk sourceDir targetName (.dir n children)) ∧
      (∀ (disk1 : Disk) (src tgt : String) (err : GoError),
        mapFilesToArchive disk1 src tgt = .error err →
        err.Is ErrNoFilesToArchive = true →
        ∃ files, FilesFromDisk disk1 src tgt = .ok files ∧ files.length ≤ 1) := by
  have h1 : FilesFromDisk disk sourceDir targetName
      = .ok (walk sourceDir targetName (.dir n children)) := by
    simp [FilesFromDisk, hdisk]
  refine ⟨h1, ?_, ?_⟩
  · have hlen : ¬ (walk sourceDir targetName (.dir n children)).length ≤ 1 := by
      have := walkChildren_ne_nil sourceDir targetName children (anyContainsFile_ne_nil _ hfile)
      have hpos := List.length_pos.mpr this
      rw [walk_dir_length]
      omega
    simp only [mapFilesToArchive, h1, if_neg hlen]
  · intro disk1 src tgt err herr his
    unfold mapFilesToArchive at herr
    cases hd : disk1 src with
    | none =>
      simp only [FilesFromDisk, hd] at herr
      injection herr with herr
      subst herr
      simp only [GoError.Is, GoError.Error, Bool.or_eq_true, decide_eq_true_eq] at his
      rcases his with h | h | h
      · exact absurd h (by simp [ErrNoFilesToArchive])
      · exact absurd h (lstat_ne_noFiles src)
      · exact absurd h (by simp)
    | some tree =>
      simp only [FilesFromDisk, hd] at herr ⊢
      by_cases hl : (walk src tgt tree).length ≤ 1
      · exact ⟨_, rfl, hl⟩
      · simp [if_neg hl] at herr

theorem mapFilesToArchive_ok_of_file_witness :
    diskOneFile "/w/repo" = some (.dir "repo" [.dir ".git" [.file "HEAD"]]) ∧
      anyContainsFile [.dir ".git" [.file "HEAD"]] = true ∧
      mapFilesToArchive diskOneFile "/w/repo" "repo" =
        .ok [⟨"/w/repo", "repo", true⟩, ⟨"/w/repo/.git", "repo/.git", true⟩,
          ⟨"/w/repo/.git/HEAD", "repo/.git/HEAD", false⟩] :=
  ⟨rfl, rfl, (mapFilesToArchive_ok_of_file diskOneFile "/w/repo" "repo" "repo"
    [.dir ".git" [.file "HEAD"]] rfl rfl).2.1⟩


/-! ### Decimal digits -/

theorem toDigitsCore_acc (f : Nat) : ∀ (n : Nat) (ds : List Char),
    Nat.toDigitsCore 10 f n ds = Nat.toDigitsCore 10 f n [] ++ ds := by
  induction f with
  | zero => intro n ds; simp [Nat.toDigitsCore]
  | succ f ih =>
    intro n ds
    simp only [Nat.toDigitsCore]
    by_cases h : n / 10 = 0
    · simp [h]
    · simp only [h, if_false]
      rw [ih (n / 10) (Nat.digitChar (n % 10) :: ds), ih (n / 10) [Nat.digitChar (n % 10)]]
      simp

theorem toDigitsCore_fuel (f : Nat) : ∀ (n : Nat) (ds : List Char), n < f →
    Nat.toDigitsCore 10 f n ds = Nat.toDigitsCore 10 (n + 1) n ds := by
  induction f using Nat.strong_induction_on with
  | _ f ih =>
    intro n ds hn
    cases f with
    | zero => omega
    | succ f =>
      simp only [Nat.toDigitsCore]
      by_cases h : n / 10 = 0
      · simp [h]
      · simp only [h, if_false]
        have h1 : n / 10 < n := by omega
        rw [ih f (by omega) (n / 10) _ (by omega)]
        by_cases hnf : n = f
        · subst hnf
          rw [ih n (by omega) (n / 10) _ h1]
        · rw [ih n (by omega) (n / 10) _ h1]

theorem toDigits_lt (n : Nat) (h : n < 10) : Nat.toDigits 10 n = [Nat.digitChar n] := by
  have h0 : n / 10 = 0 := by omega
  have h1 : n % 10 = n := by omega
  simp [Nat.toDigits, Nat.toDigitsCore, h0, h1]

theorem toDigits_ge (n : Nat) (h : 10 ≤ n) :
    Nat.toDigits 10 n = Nat.toDigits 10 (n / 10) ++ [Nat.digitChar (n % 10)] := by
  have h0 : ¬ n / 10 = 0 := by omega
  have e : Nat.toDigitsCore 10 (n + 1) n []
      = Nat.toDigitsCore 10 n (n / 10) [Nat.digitChar (n % 10)] := by
    simp [Nat.toDigitsCore, h0]
  unfold Nat.toDigits
  rw [e, toDigitsCore_acc, toDigitsCore_fuel n (n / 10) [] (by omega)]

theorem toDigits_ne_nil (n : Nat) : Nat.toDigits 10 n ≠ [] := by
  by_cases h : n < 10
  · simp [toDigits_lt n h]
  · simp [toDigits_ge n (by omega)]

theorem digitChar_isDigit : ∀ k, k < 10 → (Nat.digitChar k).isDigit = true := by decide

theorem digitChar_inj : ∀ a, a < 10 → ∀ b, b < 10 →
    Nat.digitChar a = Nat.digitChar b → a = b := by decide

theorem toDigits_isDigit (n : Nat) : ∀ c ∈ Nat.toDigits 10 n, c.isDigit = true := by
  induction n using Nat.strong_induction_on with
  | _ n ih =>
    intro c hc
    by_cases h : n < 10
    · rw [toDigits_lt n h] at hc
      simp only [List.mem_singleton] at hc
      subst hc
      exact digitChar_isDigit n h
    · rw [toDigits_ge n (by omega)] at hc
      rcases List.mem_append.mp hc with hc | hc
      · exact ih (n / 10) (by omega) c hc
      · simp only [List.mem_singleton] at hc
        subst hc
        exact digitChar_isDigit _ (Nat.mod_lt _ (by decide))

theorem toDigits_inj (n : Nat) : ∀ m, Nat.toDigits 10 n = Nat.toDigits 10 m → n = m := by
  induction n using Nat.strong_induction_on with
  | _ n ih =>
    intro m hm
    by_cases hn : n < 10
    · by_cases hm10 : m < 10
      · rw [toDigits_lt n hn, toDigits_lt m hm10] at hm
        exact digitChar_inj n hn m hm10 (List.cons.inj hm).1
      · rw [toDigits_lt n hn, toDigits_ge m (by omega)] at hm
        have hl := congrArg List.length hm
        have := List.length_pos.mpr (toDigits_ne_nil (m / 10))
        simp only [List.length_append, List.length_singleton, List.length_cons,
          List.length_nil] at hl
        omega
    · by_cases hm10 : m < 10
      · rw [toDigits_ge n (by omega), toDigits_lt m hm10] at hm
        have hl := congrArg List.length hm
        have := List.length_pos.mpr (toDigits_ne_nil (n / 10))
        simp only [List.length_append, List.length_singleton, List.length_cons,
          List.length_nil] at hl
        omega
      · rw [toDigits_ge n (by omega), toDigits_ge m (by omega)] at hm
        have h2 := List.append_inj' hm rfl
        have hq := ih (n / 10) (by omega) (m / 10) h2.1
        have hr := digitChar_inj (n % 10) (Nat.mod_lt _ (by decide)) (m % 10)
          (Nat.mod_lt _ (by decide)) (List.cons.inj h2.2).1
        omega

theorem toDigits_length_ge_four (n : Nat) (h : 1000 ≤ n) : 4 ≤ (Nat.toDigits 10 n).length := by
  rw [toDigits_ge n (by omega), toDigits_ge (n / 10) (by omega),
    toDigits_ge (n / 10 / 10) (by omega)]
  have := List.length_pos.mpr (toDigits_ne_nil (n / 10 / 10 / 10))
  simp
  omega

theorem fmtInt_numeric (w : Nat) (n : Int) : ∀ c ∈ (fmtInt w n).data, numeric c = true := by
  intro c hc
  simp only [fmtInt, List.mem_append, List.mem_replicate] at hc
  rcases hc with (hc | hc) | hc
  · split at hc
    · simp only [List.mem_singleton] at hc
      subst hc
      decide
    · simp at hc
  · rw [hc.2]
    decide
  · simp [numeric, toDigits_isDigit _ c hc]

theorem fmtInt_zero_inj (a b : Int) (h : fmtInt 0 a = fmtInt 0 b) : a = b := by
  have hd := congrArg String.data h
  simp only [fmtInt, Nat.zero_sub, List.replicate_zero, List.append_nil] at hd
  have hdig : ∀ n : Nat, ∀ l, Nat.toDigits 10 n ≠ '-' :: l := by
    intro n l hl
    have := toDigits_isDigit n '-' (by rw [hl]; simp)
    exact absurd this (by decide)
  by_cases ha : a < 0 <;> by_cases hb : b < 0
  · simp only [ha, hb, if_true, List.singleton_append, List.cons.injEq, true_and] at hd
    have := toDigits_inj _ _ hd
    omega
  · simp only [ha, hb, if_true, if_false, List.singleton_append, List.nil_append] at hd
    exact absurd hd.symm (hdig _ _)
  · simp only [ha, hb, if_true, if_false, List.singleton_append, List.nil_append] at hd
    exact absurd hd (hdig _ _)
  · simp only [ha, hb, if_false, List.nil_append] at hd
    have := toDigits_inj _ _ hd
    omega

theorem fmtInt_four_eq (y : Int) (h : 1000 ≤ y) : fmtInt 4 y = fmtInt 0 y := by
  have hy : ¬ y < 0 := by omega
  have hl := toDigits_length_ge_four y.natAbs (by omega)
  simp only [fmtInt, hy, if_false, List.length_nil, Nat.zero_add, Nat.zero_sub]
  have : 4 - (Nat.toDigits 10 y.natAbs).length = 0 := by omega
  rw [this]


/-! ### Paths -/

theorem splitSlash_noSlash (s : List Char) (h : ∀ c ∈ s, c ≠ '/') : splitSlash s = [s] := by
  induction s with
  | nil => rfl
  | cons c cs ih =>
    have hc : c ≠ '/' := h c (List.mem_cons_self _ _)
    have hcs := ih (fun d hd => h d (List.mem_cons_of_mem _ hd))
    simp [splitSlash, hc, hcs]

theorem splitSlash_append (x : List Char) :
    ∃ init l, splitSlash x = init ++ [l] ∧
      ∀ s : List Char, (∀ c ∈ s, c ≠ '/') → splitSlash (x ++ s) = init ++ [l ++ s] := by
  induction x with
  | nil =>
    exact ⟨[], [], rfl, fun s hs => by simpa using splitSlash_noSlash s hs⟩
  | cons c cs ih =>
    obtain ⟨init, l, h1, h2⟩ := ih
    by_cases hc : c = '/'
    · refine ⟨[] :: init, l, by simp [splitSlash, hc, h1], fun s hs => ?_⟩
      simp [splitSlash, hc, h2 s hs]
    · cases init with
      | nil =>
        refine ⟨[], c :: l, by simp [splitSlash, hc, h1], fun s hs => ?_⟩
        simp [splitSlash, hc, h2 s hs]
      | cons a rest =>
        refine ⟨(c :: a) :: rest, l, by simp [splitSlash, hc, h1], fun s hs => ?_⟩
        simp [splitSlash, hc, h2 s hs]

theorem intercalate_concat (sep : List Char) (A : List (List Char)) :
    ∃ P : List Char, ∀ b : List Char, List.intercalate sep (A ++ [b]) = P ++ b := by
  induction A with
  | nil => exact ⟨[], fun b => by simp [List.intercalate, List.intersperse]⟩
  | cons a A ih =>
    obtain ⟨P, hP⟩ := ih
    refine ⟨a ++ sep ++ P, fun b => ?_⟩
    have := hP b
    cases A with
    | nil =>
      simp only [List.nil_append] at this ⊢
      simp [List.intercalate, List.intersperse] at this ⊢
      simp [← this]
    | cons a2 A2 =>
      simp only [List.cons_append] at this ⊢
      simp only [List.intercalate, List.intersperse, List.flatten_cons] at this ⊢
      rw [this]
      simp

theorem cleanStep_long (rooted : Bool) (kept : List (List Char)) (elem : List Char)
    (h : 3 ≤ elem.length) : cleanStep rooted kept elem = elem :: kept := by
  have h1 : elem ≠ [] := by intro e; simp [e] at h
  have h2 : elem ≠ ['.'] := by intro e; simp [e] at h
  have h3 : elem ≠ ['.', '.'] := by intro e; simp [e] at h
  simp [cleanStep, h1, h2, h3]

theorem head?_append_noSlash (x s : List Char) (hs : ∀ c ∈ s, c ≠ '/') :
    ((x ++ s).head? == some '/') = (x.head? == some '/') := by
  cases x with
  | nil =>
    cases s with
    | nil => rfl
    | cons c cs =>
      have := hs c (List.mem_cons_self _ _)
      simp [this]
  | cons a as => simp

/-- Cleaning a path that ends in a slash-free piece of three or more characters
leaves that piece at the end, after a prefix that depends on the rest alone. -/
theorem cleanChars_append (x : List Char) :
    ∃ Q : List Char, ∀ s : List Char, (∀ c ∈ s, c ≠ '/') → 3 ≤ s.length →
      cleanChars (x ++ s) = Q ++ s := by
  obtain ⟨init, l, _, h2⟩ := splitSlash_append x
  obtain ⟨P, hP⟩ := intercalate_concat ['/']
    (init.foldl (cleanStep (x.head? == some '/')) []).reverse
  refine ⟨(if (x.head? == some '/') = true then ['/'] else []) ++ P ++ l, fun s hs hlen => ?_⟩
  have hstep : cleanStep (x.head? == some '/')
      (init.foldl (cleanStep (x.head? == some '/')) []) (l ++ s)
      = (l ++ s) :: init.foldl (cleanStep (x.head? == some '/')) [] :=
    cleanStep_long _ _ _ (by simp; omega)
  have hne : s ≠ [] := by intro e; simp [e] at hlen
  unfold cleanChars
  simp only [head?_append_noSlash x s hs, h2 s hs, List.foldl_append, List.foldl_cons,
    List.foldl_nil, hstep, List.reverse_cons, hP]
  rw [if_neg (by simp [hne])]
  simp

/-- Joining a directory with a file name that ends in a slash-free piece of
three or more characters leaves that piece at the end of the path. -/
theorem filepathJoin_append (dir name : String) :
    ∃ Q : String, ∀ sfx : String, (∀ c ∈ sfx.data, c ≠ '/') → 3 ≤ sfx.data.length →
      filepathJoin dir (name ++ sfx) = Q ++ sfx := by
  by_cases hd : dir = ""
  · obtain ⟨Q, hQ⟩ := cleanChars_append name.data
    refine ⟨⟨Q⟩, fun sfx hs hlen => ?_⟩
    have hne : name ++ sfx ≠ "" := by
      intro e
      have := congrArg String.data e
      simp only [String.data_append] at this
      have h0 : sfx.data = [] := (List.append_eq_nil.mp this).2
      simp [h0] at hlen
    simp only [filepathJoin, hd, ne_eq, not_true_eq_false, if_false, hne, not_false_eq_true,
      if_true, filepathClean, String.data_append, hQ sfx.data hs hlen]
    rfl
  · obtain ⟨Q, hQ⟩ := cleanChars_append (dir.data ++ ['/'] ++ name.data)
    refine ⟨⟨Q⟩, fun sfx hs hlen => ?_⟩
    have := hQ sfx.data hs hlen
    simp only [filepathJoin, hd, ne_eq, not_false_eq_true, if_true, filepathClean,
      String.data_append]
    have e : dir.data ++ "/".data ++ (name.data ++ sfx.data)
        = dir.data ++ ['/'] ++ name.data ++ sfx.data := by simp
    rw [e, this]
    rfl


/-! ### The timestamp -/

theorem civil_range (z : Int) : 1 ≤ (Time.civil z).2.1 ∧ (Time.civil z).2.1 ≤ 12 ∧
    1 ≤ (Time.civil z).2.2 ∧ (Time.civil z).2.2 ≤ 31 := by
  simp only [Time.civil]
  split <;> omega

theorem clock_range (t : Time) : 0 ≤ t.Hour ∧ t.Hour ≤ 23 ∧ 0 ≤ t.Minute ∧ t.Minute ≤ 59 ∧
    0 ≤ t.Second ∧ t.Second ≤ 59 := by
  simp only [Time.Hour, Time.Minute, Time.Second, Time.secOfDay]
  omega

theorem fmtInt_two_length (n : Int) (h0 : 0 ≤ n) (h1 : n ≤ 99) : (fmtInt 2 n).data.length = 2 := by
  have hn : ¬ n < 0 := by omega
  simp only [fmtInt, hn, if_false, List.length_nil, Nat.zero_add, List.nil_append,
    List.length_append, List.length_replicate]
  by_cases h : n.natAbs < 10
  · simp [toDigits_lt _ h]
  · rw [toDigits_ge _ (by omega), toDigits_lt (n.natAbs / 10) (by omega)]
    simp

theorem nowString_data (t : Time) : (nowString t).data =
    '_' :: ((fmtInt 0 t.Year).data ++ (fmtInt 2 t.Month).data ++ (fmtInt 2 t.Day).data
      ++ '_' :: ((fmtInt 2 t.Hour).data ++ (fmtInt 2 t.Minute).data ++ (fmtInt 2 t.Second).data))
      ++ '_' :: (fmtInt 0 t.UnixMilli).data := by
  simp [nowString, String.data_append]

theorem numeric_ne (c : Char) (h : numeric c = true) : c ≠ '/' ∧ c ≠ '_' := by
  constructor <;> intro e <;> subst e <;> exact absurd h (by decide)

theorem nowString_noSlash (t : Time) : ∀ c ∈ (nowString t).data, c ≠ '/' := by
  have hn : ∀ (w : Nat) (n : Int), ∀ c ∈ (fmtInt w n).data, c ≠ '/' :=
    fun w n c hc => (numeric_ne c (fmtInt_numeric w n c hc)).1
  rw [nowString_data]
  simp only [List.forall_mem_append, List.forall_mem_cons]
  and_intros
  all_goals first
    | exact hn _ _
    | decide

theorem nowString_millis (t1 t2 : Time) (h : nowString t1 = nowString t2) :
    t1.UnixMilli = t2.UnixMilli := by
  have hd := congrArg (fun s : String => s.data.reverse.takeWhile (fun c => c != '_')) h
  simp only [nowString_data, List.reverse_append, List.reverse_cons] at hd
  have key : ∀ (m : Int) (A : List Char),
      List.takeWhile (fun c => c != '_') (((fmtInt 0 m).data.reverse ++ ['_']) ++ A)
        = (fmtInt 0 m).data.reverse := by
    intro m A
    rw [List.append_assoc, List.takeWhile_append_of_pos]
    · simp
    · intro c hc
      have := (numeric_ne c (fmtInt_numeric 0 m c (List.mem_reverse.mp hc))).2
      simpa using this
  rw [key, key] at hd
  have hdata : (fmtInt 0 t1.UnixMilli).data = (fmtInt 0 t2.UnixMilli).data :=
    List.reverse_injective hd
  exact fmtInt_zero_inj _ _ (String.ext hdata)

/-- The archive path is a prefix that depends on the name and the directory
alone, followed by the timestamp and the extension. -/
theorem ArchiveTargetPath_eq (name targetDir : String) :
    ∃ Q : String, ∀ now : Time,
      ArchiveTargetPath name targetDir now = Q ++ (nowString now ++ ".tar.gz") := by
  obtain ⟨Q, hQ⟩ := filepathJoin_append targetDir name
  refine ⟨Q, fun now => ?_⟩
  have hs : ∀ c ∈ (nowString now ++ ".tar.gz").data, c ≠ '/' := by
    intro c hc
    simp only [String.data_append, List.mem_append] at hc
    rcases hc with hc | hc
    · exact nowString_noSlash now c hc
    · intro e
      subst e
      exact absurd hc (by decide)
  have hl : 3 ≤ (nowString now ++ ".tar.gz").data.length := by
    rw [String.data_append, List.length_append]
    have : (".tar.gz" : String).data.length = 7 := by decide
    omega
  have := hQ (nowString now ++ ".tar.gz") hs hl
  simpa only [ArchiveTargetPath, String.append_assoc] using this

/-- C3 (as stated, refuted): at 00:59:59.999 UTC on 27 October 2024, read in a
zone two hours east of UTC, the archive path carries the local time 02:59:59
and not the UTC time 00:59:59 of the instant. -/
theorem ArchiveTargetPath_not_utc :
    ArchiveTargetPath "repo" "/backup" tBeforeFallBack
        = "/backup/repo_20241027_025959_1729990799999.tar.gz" ∧
      filepathJoin "/backup" ("repo" ++ specTimestamp tBeforeFallBack.UTC ++ ".tar.gz")
        = "/backup/repo_20241027_005959_1729990799999.tar.gz" ∧
      ArchiveTargetPath "repo" "/backup" tBeforeFallBack
        ≠ filepathJoin "/backup" ("repo" ++ specTimestamp tBeforeFallBack.UTC ++ ".tar.gz") := by
  decide

/-- C3 (amended): for every repository name, target directory and reading `t`
of the clock whose year has at least four digits, `ArchiveTargetPath` is the
target directory joined with name, `_YYYYMMDD_HHMMSS_<unix-millis>` and
`.tar.gz`, where the calendar fields are those of `t` in the time zone of the
reading (the local zone of the process), zero-padded, two digits each after
the year; they are the UTC fields when the offset of that zone is zero. -/
theorem ArchiveTargetPath_local (name targetDir : String) (t : Time) (hy : 1000 ≤ t.Year) :
    ArchiveTargetPath name targetDir t
        = filepathJoin targetDir (name ++ specTimestamp t ++ ".tar.gz") ∧
      (t.offset = 0 → specTimestamp t = specTimestamp t.UTC) ∧
      (fmtInt 2 t.Month).data.length = 2 ∧ (fmtInt 2 t.Day).data.length = 2 ∧
      (fmtInt 2 t.Hour).data.length = 2 ∧ (fmtInt 2 t.Minute).data.length = 2 ∧
      (fmtInt 2 t.Second).data.length = 2 := by
  have hc := civil_range t.localDay
  have hk := clock_range t
  refine ⟨?_, ?_, ?_, ?_, ?_, ?_, ?_⟩
  · simp only [ArchiveTargetPath, nowString, specTimestamp, fmtInt_four_eq t.Year hy]
  · intro h0
    have : t.UTC = t := by
      cases t
      simp only [Time.UTC] at h0 ⊢
      simp [h0]
    rw [this]
  · exact fmtInt_two_length _ (by unfold Time.Month; omega) (by unfold Time.Month; omega)
  · exact fmtInt_two_length _ (by unfold Time.Day; omega) (by unfold Time.Day; omega)
  · exact fmtInt_two_length _ (by omega) (by omega)
  · exact fmtInt_two_length _ (by omega) (by omega)
  · exact fmtInt_two_length _ (by omega) (by omega)

theorem ArchiveTargetPath_local_witness :
    (1000 : Int) ≤ tBeforeFallBack.Year ∧
      ArchiveTargetPath "repo" "/backup" tBeforeFallBack
        = filepathJoin "/backup" ("repo" ++ specTimestamp tBeforeFallBack ++ ".tar.gz") :=
  ⟨by decide, (ArchiveTargetPath_local "repo" "/backup" tBeforeFallBack (by decide)).1⟩

/-- C4 (the code at the failing input): two calls of `ArchiveTargetPath` with
the same name and target directory, the second one nanosecond after the first
and in the same millisecond, get the same suffix from `nowString` and the same
archive path, although the second call is the later one. -/
theorem nowString_not_increasing :
    tBeforeFallBack.unixNano < tSameMilli.unixNano ∧
      nowString tBeforeFallBack = "_20241027_025959_1729990799999" ∧
      nowString tSameMilli = "_20241027_025959_1729990799999" ∧
      ArchiveTargetPath "repo" "/backup" tBeforeFallBack
        = "/backup/repo_20241027_025959_1729990799999.tar.gz" ∧
      ArchiveTargetPath "repo" "/backup" tSameMilli
        = "/backup/repo_20241027_025959_1729990799999.tar.gz" := by
  decide

/-- A later call in the next millisecond, after the local clock was set back an
hour at the end of daylight saving time, gets a suffix that is smaller as a
string than the suffix of the earlier call. -/
theorem nowString_after_fall_back :
    tBeforeFallBack.unixNano < tAfterFallBack.unixNano ∧
      (nowString tAfterFallBack).data < (nowString tBeforeFallBack).data := by
  decide

/-- Two readings of the clock that fall in different milliseconds, the second
later than the first, give suffixes that end in a strictly greater
Unix-millisecond count and differ, and archive paths that are distinct for the
same name and target directory. -/
theorem ArchiveTargetPath_distinct (name targetDir : String) (t1 t2 : Time)
    (hlater : t1.unixNano < t2.unixNano) (hms : t1.UnixMilli ≠ t2.UnixMilli) :
    t1.UnixMilli < t2.UnixMilli ∧ nowString t1 ≠ nowString t2 ∧
      ArchiveTargetPath name targetDir t1 ≠ ArchiveTargetPath name targetDir t2 := by
  have hne : nowString t1 ≠ nowString t2 := fun h => hms (nowString_millis t1 t2 h)
  refine ⟨?_, hne, ?_⟩
  · simp only [Time.UnixMilli] at hms ⊢
    omega
  · obtain ⟨Q, hQ⟩ := ArchiveTargetPath_eq name targetDir
    rw [hQ t1, hQ t2]
    intro h
    have hd := congrArg String.data h
    simp only [String.data_append] at hd
    exact hne (String.ext (List.append_cancel_right (List.append_cancel_left hd)))

theorem ArchiveTargetPath_distinct_witness :
    tBeforeFallBack.unixNano < tAfterFallBack.unixNano ∧
      tBeforeFallBack.UnixMilli ≠ tAfterFallBack.UnixMilli ∧
      ArchiveTargetPath "repo" "/backup" tBeforeFallBack
        ≠ ArchiveTargetPath "repo" "/backup" tAfterFallBack :=
  ⟨by decide, by decide,
    (ArchiveTargetPath_distinct "repo" "/backup" tBeforeFallBack tAfterFallBack
      (by decide) (by decide)).2.2⟩

end target

/-! ## Provider listings -/

namespace github

/-- The list call of `getProjectInfos` at a given page, in the branch that the
configuration selects. -/
theorem listAll_eq (p : Client) (cfg : config.ProviderConfig) (fuel : Nat) :
    listAll p cfg fuel
      = listPages (if cfg.IsGroup then fetchOrg p cfg else fetchUser p)
          (if cfg.IsGroup then "org" else "user") fuel 0 [] := by
  unfold listAll
  cases cfg.IsGroup <;> simp

theorem listPages_serving (fetch : Nat → Except GoError (List Repository × Response))
    (what : String) (rest : List (List Repository)) :
    ∀ (k fuel : Nat) (acc : List Repository), rest ≠ [] → rest.length ≤ fuel →
      (∀ j repos, rest[j]? = some repos →
        fetch (pageParam (k + j))
          = .ok (repos, ⟨if j + 1 < rest.length then k + j + 2 else 0⟩)) →
      listPages fetch what fuel (pageParam k) acc
        = ((List.range' k rest.length).map pageParam, some (.ok (acc ++ rest.flatten))) := by
  induction rest with
  | nil => intro k fuel acc h; exact absurd rfl h
  | cons r rest ih =>
    intro k fuel acc _ hfuel hserve
    cases fuel with
    | zero => simp at hfuel
    | succ fuel =>
      have h0 := hserve 0 r (by simp)
      simp only [Nat.add_zero] at h0
      by_cases hrest : rest = []
      · subst hrest
        simp [listPages, h0, List.range']
      · have hlen : 0 < rest.length := List.length_pos.mpr hrest
        have hnext : (if 0 + 1 < (r :: rest).length then k + 2 else 0) = k + 2 := by
          simp [hlen]
        have hpp : pageParam (k + 1) = k + 2 := by simp [pageParam]
        have hrec := ih (k + 1) fuel (acc ++ r) hrest (by simpa using hfuel)
          (fun j repos hj => by
            have := hserve (j + 1) repos (by simpa using hj)
            have e1 : k + (j + 1) = k + 1 + j := by omega
            have e2 : (j + 1 + 1 < (r :: rest).length) = (j + 1 < rest.length) := by simp
            have e3 : k + (j + 1) + 2 = k + 1 + j + 2 := by omega
            rw [e1] at this
            simpa only [e2, e3, ← e1] using this)
        rw [hpp] at hrec
        simp only [listPages, h0, hnext, Nat.add_eq_zero, OfNat.ofNat_ne_zero, and_false,
          if_false, hrec]
        simp [List.range', List.append_assoc]

/-- A page request that fails ends the listing with an error. -/
theorem listPages_error (fetch : Nat → Except GoError (List Repository × Response))
    (what : String) (bad : Nat) (err : GoError) (hbad : fetch bad = .error err) :
    ∀ (fuel page : Nat) (acc : List Repository),
      bad ∈ (listPages fetch what fuel page acc).1 →
      ∃ e, (listPages fetch what fuel page acc).2 = some (.error e) := by
  intro fuel
  induction fuel with
  | zero => intro page acc h; simp [listPages] at h
  | succ fuel ih =>
    intro page acc h
    unfold listPages at h ⊢
    cases hf : fetch page with
    | error e => simp
    | ok v =>
      obtain ⟨repos, resp⟩ := v
      simp only [hf] at h ⊢
      by_cases hn : resp.NextPage = 0
      · simp only [hn, if_true, List.mem_singleton] at h
        rw [h, hf] at hbad
        exact absurd hbad (by simp)
      · simp only [hn, if_false, List.mem_cons] at h ⊢
        rcases h with h | h
        · rw [h, hf] at hbad
          exact absurd hbad (by simp)
        · exact ih _ _ h

theorem collectInfos_acc (p : Client) (cfg : config.ProviderConfig) (repos : List Repository) :
    ∀ acc, collectInfos p cfg repos acc
      = ((collectInfos p cfg repos []).1, acc ++ (collectInfos p cfg repos []).2) := by
  induction repos with
  | nil => intro acc; simp [collectInfos]
  | cons r rest ih =>
    intro acc
    unfold collectInfos
    by_cases hs : (!cfg.Git.IncludeForks && r.Fork == some true) = true
    · simp only [hs, if_true]
      exact ih acc
    · simp only [hs]
      cases newProjectInfo p cfg r.GetName with
      | error e =>
        simp only [Bool.false_eq_true, if_false]
        rw [ih acc]
      | ok info =>
        simp only [Bool.false_eq_true, if_false]
        rw [ih (acc ++ [info]), ih ([] ++ [info])]
        simp

theorem newProjectInfo_name (p : Client) (cfg : config.ProviderConfig) (name : String)
    (info : model.ProjectInfo) (h : newProjectInfo p cfg name = .ok info) :
    info.OriginalName = name := by
  cases hg : p.Get (if !cfg.IsGroup then cfg.User else cfg.Group) name with
  | error e =>
    simp only [newProjectInfo, hg] at h
    cases h
  | ok d =>
    simp only [newProjectInfo, hg] at h
    injection h with h
    rw [← h]

/-- Every project info that the GitHub listing returns carries the name of a
listed repository. -/
theorem collectInfos_names_mem (p : Client) (cfg : config.ProviderConfig)
    (repos : List Repository) :
    ∀ info ∈ (collectInfos p cfg repos []).2, ∃ r ∈ repos, info.OriginalName = r.GetName := by
  induction repos with
  | nil => intro info h; simp [collectInfos] at h
  | cons r rest ih =>
    intro info h
    unfold collectInfos at h
    by_cases hs : (!cfg.Git.IncludeForks && r.Fork == some true) = true
    · simp only [hs, if_true] at h
      obtain ⟨r2, hr2, e⟩ := ih info h
      exact ⟨r2, List.mem_cons_of_mem _ hr2, e⟩
    · simp only [hs, Bool.false_eq_true, if_false] at h
      cases hn : newProjectInfo p cfg r.GetName with
      | error e =>
        simp only [hn] at h
        obtain ⟨r2, hr2, e⟩ := ih info h
        exact ⟨r2, List.mem_cons_of_mem _ hr2, e⟩
      | ok i0 =>
        simp only [hn] at h
        rw [collectInfos_acc] at h
        simp only [List.nil_append, List.mem_append, List.mem_singleton] at h
        rcases h with h | h
        · exact ⟨r, List.mem_cons_self _ _, by rw [h]; exact newProjectInfo_name p cfg _ _ hn⟩
        · obtain ⟨r2, hr2, e⟩ := ih info h
          exact ⟨r2, List.mem_cons_of_mem _ hr2, e⟩

/-- With every detail call answered, the GitHub listing returns one project
info per repository that passes the fork rule, in order, under its name. -/
theorem collectInfos_names (p : Client) (cfg : config.ProviderConfig)
    (repos : List Repository)
    (hget : ∀ r ∈ repos, ∃ info, newProjectInfo p cfg r.GetName = .ok info) :
    (collectInfos p cfg repos []).2.map (fun i => i.OriginalName)
      = (repos.filter (fun r => cfg.Git.IncludeForks || !(r.Fork == some true))).map
          Repository.GetName := by
  induction repos with
  | nil => simp [collectInfos]
  | cons r rest ih =>
    have ih2 := ih (fun r2 h2 => hget r2 (List.mem_cons_of_mem _ h2))
    unfold collectInfos
    by_cases hs : (!cfg.Git.IncludeForks && r.Fork == some true) = true
    · have hf : (cfg.Git.IncludeForks || !(r.Fork == some true)) = false := by
        cases hi : cfg.Git.IncludeForks <;> cases hk : (r.Fork == some true) <;>
          simp [hi, hk] at hs ⊢
      simp only [hs, if_true, List.filter_cons, hf, Bool.false_eq_true, if_false]
      exact ih2
    · have hf : (cfg.Git.IncludeForks || !(r.Fork == some true)) = true := by
        cases hi : cfg.Git.IncludeForks <;> cases hk : (r.Fork == some true) <;>
          simp [hi, hk] at hs ⊢
      obtain ⟨info, hinfo⟩ := hget r (List.mem_cons_self _ _)
      simp only [hs, Bool.false_eq_true, if_false, hinfo, List.filter_cons, hf, if_true,
        List.map_cons]
      rw [collectInfos_acc]
      simp only [List.nil_append, List.singleton_append, List.map_cons]
      rw [ih2, newProjectInfo_name p cfg _ _ hinfo]

theorem newProjectInfo_ok (p : Client) (cfg : config.ProviderConfig) (name : String)
    (d : Repository)
    (h : p.Get (if !cfg.IsGroup then cfg.User else cfg.Group) name = .ok d) :
    ∃ info, newProjectInfo p cfg name = .ok info := by
  unfold newProjectInfo
  simp only [h]
  exact ⟨_, rfl⟩

end github

namespace gitlab

theorem listAll_eq_listPages (c : Client) (cfg : config.ProviderConfig) (fuel : Nat) :
    listAll c cfg fuel
      = listPages (if cfg.IsGroup then fetchGroup c cfg else fetchUser c cfg)
          (if cfg.IsGroup then "group" else "user") fuel 0 [] := by
  unfold listAll
  cases cfg.IsGroup <;> simp

/-- A page request that fails ends the listing with an error. -/
theorem listPages_fails (fetch : Nat → Except GoError (List Project × Response))
    (what : String) (bad : Nat) (err : GoError) (hbad : fetch bad = .error err) :
    ∀ (fuel page : Nat) (acc : List Project),
      bad ∈ (listPages fetch what fuel page acc).1 →
      ∃ e, (listPages fetch what fuel page acc).2 = some (.error e) := by
  intro fuel
  induction fuel with
  | zero => intro page acc h; simp [listPages] at h
  | succ fuel ih =>
    intro page acc h
    unfold listPages at h ⊢
    cases hf : fetch page with
    | error e => simp
    | ok v =>
      obtain ⟨repos, resp⟩ := v
      simp only [hf] at h ⊢
      by_cases hn : resp.CurrentPage ≥ resp.TotalPages
      · simp only [hn, if_true, List.mem_singleton] at h
        rw [h, hf] at hbad
        exact absurd hbad (by simp)
      · simp only [hn, if_false, List.mem_cons] at h ⊢
        rcases h with h | h
        · rw [h, hf] at hbad
          exact absurd hbad (by simp)
        · exact ih _ _ h

theorem newProjectInfo_found (cfg : config.ProviderConfig) (c : Client) (name : String)
    (d : Project) (h : c.GetProject (getProjectPath cfg name) = .ok d) :
    ∃ info, newProjectInfo cfg c name = .ok info ∧ info.OriginalName = name := by
  simp only [newProjectInfo, h]
  exact ⟨_, rfl, rfl⟩

theorem newProjectInfo_fails (cfg : config.ProviderConfig) (c : Client) (name : String)
    (err : GoError) (h : c.GetProject (getProjectPath cfg name) = .error err)
    (h404 : stringsContains err.Error "404 Not Found" = false) :
    newProjectInfo cfg c name = .error (.wrap ("get gitlab project: " ++ err.Error) err) := by
  simp [newProjectInfo, h, h404]

/-- With every detail call answered, the GitLab listing returns one project
info per project that passes the fork rule, in order, under its path. -/
theorem collectInfos_paths (c : Client) (cfg : config.ProviderConfig) (repos : List Project)
    (hget : ∀ r ∈ repos, ∃ d, c.GetProject (getProjectPath cfg r.Path) = .ok d) :
    ∀ acc, ∃ infos, (collectInfos c cfg repos acc).2 = .ok (acc ++ infos) ∧
      infos.map (fun i => i.OriginalName)
        = (repos.filter (fun r => cfg.Git.IncludeForks || !r.ForkedFromProject.isSome)).map
            (fun r => r.Path) := by
  induction repos with
  | nil => intro acc; exact ⟨[], by simp [collectInfos], by simp⟩
  | cons r rest ih =>
    intro acc
    have ih2 := ih (fun r2 h2 => hget r2 (List.mem_cons_of_mem _ h2))
    unfold collectInfos
    by_cases hs : (!cfg.Git.IncludeForks && r.ForkedFromProject.isSome) = true
    · have hf : (cfg.Git.IncludeForks || !r.ForkedFromProject.isSome) = false := by
        cases hi : cfg.Git.IncludeForks <;> cases hk : r.ForkedFromProject.isSome <;>
          simp [hi, hk] at hs ⊢
      simp only [hs, if_true, List.filter_cons, hf, Bool.false_eq_true, if_false]
      exact ih2 acc
    · have hf : (cfg.Git.IncludeForks || !r.ForkedFromProject.isSome) = true := by
        cases hi : cfg.Git.IncludeForks <;> cases hk : r.ForkedFromProject.isSome <;>
          simp [hi, hk] at hs ⊢
      obtain ⟨d, hd⟩ := hget r (List.mem_cons_self _ _)
      obtain ⟨info, hinfo, hname⟩ := newProjectInfo_found cfg c r.Path d hd
      obtain ⟨infos, h1, h2⟩ := ih2 (acc ++ [info])
      refine ⟨info :: infos, ?_, ?_⟩
      · simp only [hs, Bool.false_eq_true, if_false, hinfo, h1]
        simp
      · simp only [List.filter_cons, hf, if_true, List.map_cons, h2, hname]

/-- A detail call that fails with anything but `404 Not Found`, for a project
that passes the fork rule, ends the GitLab listing with an error. -/
theorem collectInfos_fails (c : Client) (cfg : config.ProviderConfig) (bad : Project)
    (err : GoError)
    (hscope : (!cfg.Git.IncludeForks && bad.ForkedFromProject.isSome) = false)
    (hbad : c.GetProject (getProjectPath cfg bad.Path) = .error err)
    (h404 : stringsContains err.Error "404 Not Found" = false) (repos : List Project) :
    ∀ acc, bad ∈ repos → ∃ e, (collectInfos c cfg repos acc).2 = .error e := by
  induction repos with
  | nil => intro acc h; simp at h
  | cons r rest ih =>
    intro acc h
    unfold collectInfos
    by_cases hs : (!cfg.Git.IncludeForks && r.ForkedFromProject.isSome) = true
    · simp only [hs, if_true]
      rcases List.mem_cons.mp h with h | h
      · rw [h, hs] at hscope
        exact absurd hscope (by simp)
      · exact ih acc h
    · simp only [hs, Bool.false_eq_true, if_false]
      cases hn : newProjectInfo cfg c r.Path with
      | error e => exact ⟨_, rfl⟩
      | ok rm =>
        rcases List.mem_cons.mp h with h | h
        · rw [← h, newProjectInfo_fails cfg c bad.Path err hbad h404] at hn
          cases hn
        · exact ih _ h

end gitlab

namespace gitea

theorem newProjectInfo_answered (cfg : config.ProviderConfig) (c : Client) (name : String)
    (d : Repository)
    (h : c.GetRepo (if !cfg.IsGroup then cfg.User else cfg.Group) name = .ok d) :
    ∃ info, newProjectInfo cfg c name = .ok info ∧ info.OriginalName = name := by
  simp only [newProjectInfo, h]
  exact ⟨_, rfl, rfl⟩

/-- With every detail call answered, the Gitea listing returns one project info
per repository that passes the fork rule, in order, under its name. -/
theorem collectInfos_repoNames (c : Client) (cfg : config.ProviderConfig) (repos : List Repository)
    (hget : ∀ r ∈ repos, ∃ d,
      c.GetRepo (if !cfg.IsGroup then cfg.User else cfg.Group) r.Name = .ok d) :
    ∀ acc, ∃ infos, collectInfos c cfg repos acc = acc ++ infos ∧
      infos.map (fun i => i.OriginalName)
        = (repos.filter (fun r => cfg.Git.IncludeForks || !r.Fork)).map (fun r => r.Name) := by
  induction repos with
  | nil => intro acc; exact ⟨[], by simp [collectInfos], by simp⟩
  | cons r rest ih =>
    intro acc
    have ih2 := ih (fun r2 h2 => hget r2 (List.mem_cons_of_mem _ h2))
    unfold collectInfos
    by_cases hs : (!cfg.Git.IncludeForks && r.Fork) = true
    · have hf : (cfg.Git.IncludeForks || !r.Fork) = false := by
        cases hi : cfg.Git.IncludeForks <;> cases hk : r.Fork <;> simp [hi, hk] at hs ⊢
      simp only [hs, if_true, List.filter_cons, hf, Bool.false_eq_true, if_false]
      exact ih2 acc
    · have hf : (cfg.Git.IncludeForks || !r.Fork) = true := by
        cases hi : cfg.Git.IncludeForks <;> cases hk : r.Fork <;> simp [hi, hk] at hs ⊢
      obtain ⟨d, hd⟩ := hget r (List.mem_cons_self _ _)
      obtain ⟨info, hinfo, hname⟩ := newProjectInfo_answered cfg c r.Name d hd
      obtain ⟨infos, h1, h2⟩ := ih2 (acc ++ [info])
      refine ⟨info :: infos, ?_, ?_⟩
      · simp only [hs, Bool.false_eq_true, if_false, hinfo, h1]
        simp
      · simp only [List.filter_cons, hf, if_true, List.map_cons, h2, hname]

end gitea

/-! ## The listing claims -/

theorem github_run (p : github.Client) (cfg : config.ProviderConfig) (fuel : Nat) :
    (github.getProjectInfos p cfg fuel).pages = (github.listAll p cfg fuel).1 ∧
      (∀ e, (github.listAll p cfg fuel).2 = some (.error e) →
        (github.getProjectInfos p cfg fuel).result = some (.error e)) ∧
      (∀ repos, (github.listAll p cfg fuel).2 = some (.ok repos) →
        (github.getProjectInfos p cfg fuel).result
            = some (.ok (github.collectInfos p cfg repos []).2) ∧
          (github.getProjectInfos p cfg fuel).details = (github.collectInfos p cfg repos []).1) := by
  unfold github.getProjectInfos
  rcases h : github.listAll p cfg fuel with ⟨pages, _ | e | repos⟩
  · simp
  · simp
  · simp

theorem gitlab_run (c : gitlab.Client) (cfg : config.ProviderConfig) (fuel : Nat) :
    (gitlab.getRepositoryProjectInfos c cfg fuel).pages = (gitlab.listAll c cfg fuel).1 ∧
      (∀ e, (gitlab.listAll c cfg fuel).2 = some (.error e) →
        (gitlab.getRepositoryProjectInfos c cfg fuel).result = some (.error e)) ∧
      (∀ repos, (gitlab.listAll c cfg fuel).2 = some (.ok repos) →
        (gitlab.getRepositoryProjectInfos c cfg fuel).result
          = some (gitlab.collectInfos c cfg repos []).2) := by
  unfold gitlab.getRepositoryProjectInfos
  rcases h : gitlab.listAll c cfg fuel with ⟨pages, _ | e | repos⟩
  · simp
  · simp
  · simp

/-- The GitHub listing upholds the name invariant: if every listed repository
has a non-empty name, every returned project info has one. -/
theorem github_names_nonempty (p : github.Client) (cfg : config.ProviderConfig) (fuel : Nat)
    (pages : List Nat) (repos : List github.Repository) (infos : List model.ProjectInfo)
    (hlist : github.listAll p cfg fuel = (pages, some (.ok repos)))
    (hnames : ∀ r ∈ repos, r.GetName ≠ "")
    (hres : (github.getProjectInfos p cfg fuel).result = some (.ok infos)) :
    ∀ info ∈ infos, info.OriginalName ≠ "" := by
  have h := ((github_run p cfg fuel).2.2 repos (by rw [hlist])).1
  rw [h] at hres
  injection hres with hres
  injection hres with hres
  intro info hinfo
  rw [← hres] at hinfo
  obtain ⟨r, hr, e⟩ := github.collectInfos_names_mem p cfg repos info hinfo
  rw [e]
  exact hnames r hr

/-- C5 (the code at the failing inputs): a GitLab listing whose one project,
named `a`, answers the detail call with `404 Not Found` returns a list that
holds the zero project info, and so does a Gitea listing, with filtering off,
whose one repository `a` fails the detail call; the `OriginalName` of that
project info is empty. -/
theorem emptyName_surfaces :
    (gitlab.getRepositoryProjectInfos
        (glServer [glProject "a" none] "alice/a" (.new "404 Not Found")) userCfg 1).result
        = some (.ok [model.ProjectInfo.zero]) ∧
      gitea.ProjectInfos (teaServer [teaRepo "a" false] "a") (fun l => .ok l) userCfg false
        = .ok [model.ProjectInfo.zero] ∧
      model.ProjectInfo.zero.OriginalName = "" := by
  decide

/-- C6: for each of the three bindings, when the listing succeeds and every
detail call is answered, the names of the returned project infos are, with
`IncludeForks` off, exactly the names of the listed repositories that are not
flagged as forks, in listing order, and with `IncludeForks` on the names of all
listed repositories, in listing order. -/
theorem listing_names (gh : github.Client) (gl : gitlab.Client) (tea : gitea.Client)
    (filterService : List model.ProjectInfo → Except GoError (List model.ProjectInfo))
    (cfg : config.ProviderConfig) (fuel : Nat) (ghPages glPages : List Nat)
    (ghRepos : List github.Repository) (glRepos : List gitlab.Project)
    (teaRepos : List gitea.Repository)
    (hghList : github.listAll gh cfg fuel = (ghPages, some (.ok ghRepos)))
    (hghGet : ∀ r ∈ ghRepos, ∃ d,
      gh.Get (if !cfg.IsGroup then cfg.User else cfg.Group) r.GetName = .ok d)
    (hglList : gitlab.listAll gl cfg fuel = (glPages, some (.ok glRepos)))
    (hglGet : ∀ r ∈ glRepos, ∃ d, gl.GetProject (gitlab.getProjectPath cfg r.Path) = .ok d)
    (hteaList : (if cfg.IsGroup then tea.ListOrgRepos cfg.Group { Page := -1, PageSize := -1 }
      else tea.ListUserRepos cfg.User { Page := -1, PageSize := -1 }) = .ok teaRepos)
    (hteaGet : ∀ r ∈ teaRepos, ∃ d,
      tea.GetRepo (if !cfg.IsGroup then cfg.User else cfg.Group) r.Name = .ok d) :
    (∃ infos, (github.getProjectInfos gh cfg fuel).result = some (.ok infos) ∧
        (cfg.Git.IncludeForks = false → infos.map (fun i => i.OriginalName)
          = (ghRepos.filter (fun r => !(r.Fork == some true))).map github.Repository.GetName) ∧
        (cfg.Git.IncludeForks = true → infos.map (fun i => i.OriginalName)
          = ghRepos.map github.Repository.GetName)) ∧
      (∃ infos, (gitlab.getRepositoryProjectInfos gl cfg fuel).result = some (.ok infos) ∧
        (cfg.Git.IncludeForks = false → infos.map (fun i => i.OriginalName)
          = (glRepos.filter (fun r => !r.ForkedFromProject.isSome)).map (fun r => r.Path)) ∧
        (cfg.Git.IncludeForks = true → infos.map (fun i => i.OriginalName)
          = glRepos.map (fun r => r.Path))) ∧
      (∃ infos, gitea.ProjectInfos tea filterService cfg false = .ok infos ∧
        (cfg.Git.IncludeForks = false → infos.map (fun i => i.OriginalName)
          = (teaRepos.filter (fun r => !r.Fork)).map (fun r => r.Name)) ∧
        (cfg.Git.IncludeForks = true → infos.map (fun i => i.OriginalName)
          = teaRepos.map (fun r => r.Name))) := by
  refine ⟨?_, ?_, ?_⟩
  · have hrun := ((github_run gh cfg fuel).2.2 ghRepos (by rw [hghList])).1
    have hn := github.collectInfos_names gh cfg ghRepos (fun r hr => by
      obtain ⟨d, hd⟩ := hghGet r hr
      exact github.newProjectInfo_ok gh cfg _ d hd)
    refine ⟨_, hrun, ?_, ?_⟩
    · intro hf
      rw [hn]
      simp [hf]
    · intro hf
      rw [hn]
      simp [hf]
  · have hrun := (gitlab_run gl cfg fuel).2.2 glRepos (by rw [hglList])
    obtain ⟨infos, h1, h2⟩ := gitlab.collectInfos_paths gl cfg glRepos hglGet []
    rw [h1] at hrun
    refine ⟨infos, by simpa using hrun, ?_, ?_⟩
    · intro hf
      rw [h2]
      simp [hf]
    · intro hf
      rw [h2]
      simp [hf]
  · obtain ⟨infos, h1, h2⟩ := gitea.collectInfos_repoNames tea cfg teaRepos hteaGet []
    refine ⟨infos, ?_, ?_, ?_⟩
    · simp only [gitea.ProjectInfos, hteaList, h1]
      simp
    · intro hf
      rw [h2]
      simp [hf]
    · intro hf
      rw [h2]
      simp [hf]

theorem listing_names_witness :
    (∃ infos, (github.getProjectInfos (ghServer [ghListed] "") userCfg 1).result
        = some (.ok infos) ∧
      (userCfg.Git.IncludeForks = false → infos.map (fun i => i.OriginalName)
        = (ghListed.filter (fun r => !(r.Fork == some true))).map github.Repository.GetName) ∧
      (userCfg.Git.IncludeForks = true → infos.map (fun i => i.OriginalName)
        = ghListed.map github.Repository.GetName)) ∧
      (ghListed.filter (fun r => !(r.Fork == some true))).map github.Repository.GetName
        = ["alpha", "gamma"] :=
  ⟨(listing_names (ghServer [ghListed] "") (glServer glListed "" (.new "404 Not Found"))
      (teaServer teaListed "") (fun l => .ok l) userCfg 1 [0] [0] ghListed glListed teaListed
      rfl
      (by
        intro r hr
        simp only [ghListed, List.mem_cons, List.mem_singleton, List.not_mem_nil, or_false] at hr
        rcases hr with h | h | h <;> subst h <;> exact ⟨_, rfl⟩)
      rfl
      (by
        intro r hr
        simp only [glListed, List.mem_cons, List.mem_singleton, List.not_mem_nil, or_false] at hr
        rcases hr with h | h | h <;> subst h <;> exact ⟨_, rfl⟩)
      rfl
      (by
        intro r hr
        simp only [teaListed, List.mem_cons, List.mem_singleton, List.not_mem_nil, or_false] at hr
        rcases hr with h | h | h <;> subst h <;> exact ⟨_, rfl⟩)).1,
    by decide⟩

/-- C7 (as stated, refuted): GitHub lists `a` and `b`, the detail call for `a`
fails, and `getProjectInfos` returns the partial list that holds `b` alone,
with no error. -/
theorem github_partial_listing :
    (ghServer [[ghRepo "a" false, ghRepo "b" false]] "a").Get "alice" "a"
        = .error (.new "502 Bad Gateway") ∧
      (github.getProjectInfos (ghServer [[ghRepo "a" false, ghRepo "b" false]] "a")
        userCfg 1).details = ["a", "b"] ∧
      (github.getProjectInfos (ghServer [[ghRepo "a" false, ghRepo "b" false]] "a")
        userCfg 1).result
        = some (.ok [{ OriginalName := "b", Description := "N/A", HTTPSURL := "N/A",
                       SSHURL := "N/A", DefaultBranch := "main", LastActivityAt := none,
                       Visibility := "N/A", ProjectID := "N/A" }]) := by
  decide

/-- C7 (amended): for GitHub `getProjectInfos` and GitLab
`getRepositoryProjectInfos`, if any page request made during the listing fails,
the operation returns an error and no project list; for GitLab the same holds
if the listing succeeds and the detail call of a project that passes the fork
rule fails with an error other than `404 Not Found`. -/
theorem listing_errors_fatal (gh : github.Client) (gl : gitlab.Client)
    (cfg : config.ProviderConfig) (fuel : Nat) :
    (∀ page err, page ∈ (github.getProjectInfos gh cfg fuel).pages →
        (if cfg.IsGroup then github.fetchOrg gh cfg else github.fetchUser gh) page
          = .error err →
        ∃ e, (github.getProjectInfos gh cfg fuel).result = some (.error e)) ∧
      (∀ page err, page ∈ (gitlab.getRepositoryProjectInfos gl cfg fuel).pages →
        (if cfg.IsGroup then gitlab.fetchGroup gl cfg else gitlab.fetchUser gl cfg) page
          = .error err →
        ∃ e, (gitlab.getRepositoryProjectInfos gl cfg fuel).result = some (.error e)) ∧
      (∀ pages repos bad err, gitlab.listAll gl cfg fuel = (pages, some (.ok repos)) →
        bad ∈ repos →
        (!cfg.Git.IncludeForks && bad.ForkedFromProject.isSome) = false →
        gl.GetProject (gitlab.getProjectPath cfg bad.Path) = .error err →
        stringsContains err.Error "404 Not Found" = false →
        ∃ e, (gitlab.getRepositoryProjectInfos gl cfg fuel).result = some (.error e)) := by
  refine ⟨?_, ?_, ?_⟩
  · intro page err hp herr
    obtain ⟨h1, h2, _⟩ := github_run gh cfg fuel
    rw [h1, github.listAll_eq] at hp
    obtain ⟨e, he⟩ := github.listPages_error _ _ page err herr fuel 0 [] hp
    exact ⟨e, h2 e (by rw [github.listAll_eq]; exact he)⟩
  · intro page err hp herr
    obtain ⟨h1, h2, _⟩ := gitlab_run gl cfg fuel
    rw [h1, gitlab.listAll_eq_listPages] at hp
    obtain ⟨e, he⟩ := gitlab.listPages_fails _ _ page err herr fuel 0 [] hp
    exact ⟨e, h2 e (by rw [gitlab.listAll_eq_listPages]; exact he)⟩
  · intro pages repos bad err hlist hmem hscope hbad h404
    have hrun := (gitlab_run gl cfg fuel).2.2 repos (by rw [hlist])
    obtain ⟨e, he⟩ := gitlab.collectInfos_fails gl cfg bad err hscope hbad h404 repos [] hmem
    exact ⟨e, by rw [hrun, he]⟩

theorem listing_errors_fatal_witness :
    (0 ∈ (github.getProjectInfos ghUnreachable userCfg 1).pages) ∧
      github.fetchUser ghUnreachable 0 = .error (.new "dial tcp: connection refused") ∧
      ∃ e, (github.getProjectInfos ghUnreachable userCfg 1).result = some (.error e) :=
  ⟨by decide, rfl,
    (listing_errors_fatal ghUnreachable (glServer glListed "" (.new "404 Not Found"))
      userCfg 1).1 0 (.new "dial tcp: connection refused") (by decide) rfl⟩

/-- C8: for every GitHub provider that serves a sequence of one or more pages
without error, the page numbered `i` announcing `NextPage = i + 1` and the last
one `NextPage = 0`, `getProjectInfos`, in the group and in the user branch
alike, requests each page exactly once and in order (the first with `Page`
unset), stops after the last page, and runs its second loop over exactly the
concatenation of all pages in page order. -/
theorem github_pagination (p : github.Client) (cfg : config.ProviderConfig)
    (pagesData : List (List github.Repository)) (fuel : Nat)
    (hn : pagesData ≠ []) (hfuel : pagesData.length ≤ fuel)
    (hserve : ∀ i repos, pagesData[i]? = some repos →
      (if cfg.IsGroup then github.fetchOrg p cfg else github.fetchUser p) (pageParam i)
        = .ok (repos, ⟨if i + 1 < pagesData.length then i + 2 else 0⟩)) :
    (github.getProjectInfos p cfg fuel).pages = (List.range pagesData.length).map pageParam ∧
      (github.getProjectInfos p cfg fuel).pages.Nodup ∧
      (github.listAll p cfg fuel).2 = some (.ok pagesData.flatten) ∧
      (github.getProjectInfos p cfg fuel).result
        = some (.ok (github.collectInfos p cfg pagesData.flatten []).2) ∧
      (github.getProjectInfos p cfg fuel).details
        = (github.collectInfos p cfg pagesData.flatten []).1 := by
  have hl := github.listPages_serving
    (if cfg.IsGroup then github.fetchOrg p cfg else github.fetchUser p)
    (if cfg.IsGroup then "org" else "user") pagesData 0 fuel [] hn hfuel
    (fun j repos hj => by simpa using hserve j repos hj)
  have hp0 : pageParam 0 = 0 := rfl
  rw [hp0, ← github.listAll_eq, List.nil_append] at hl
  obtain ⟨h1, _, h3⟩ := github_run p cfg fuel
  have hpages : (github.getProjectInfos p cfg fuel).pages
      = (List.range pagesData.length).map pageParam := by
    rw [h1, hl, List.range_eq_range']
  have hinj : Function.Injective pageParam := by
    intro a b hab
    unfold pageParam at hab
    split at hab <;> split at hab <;> omega
  refine ⟨hpages, ?_, by rw [hl], ?_, ?_⟩
  · rw [hpages]
    exact (List.nodup_range _).map hinj
  · exact (h3 _ (by rw [hl])).1
  · exact (h3 _ (by rw [hl])).2

theorem github_pagination_witness :
    (github.getProjectInfos (ghServer ghThreePages "") groupCfg 3).pages
        = (List.range ghThreePages.length).map pageParam ∧
      (List.range ghThreePages.length).map pageParam = [0, 2, 3] ∧
      (github.getProjectInfos (ghServer ghThreePages "") userCfg 5).pages
        = (List.range ghThreePages.length).map pageParam :=
  ⟨(github_pagination (ghServer ghThreePages "") groupCfg ghThreePages 3 (by decide)
      (by decide)
      (by
        intro i repos h
        rcases i with _ | _ | _ | i
        · injection h with h; subst h; rfl
        · injection h with h; subst h; rfl
        · injection h with h; subst h; rfl
        · simp [ghThreePages] at h)).1,
    by decide,
    (github_pagination (ghServer ghThreePages "") userCfg ghThreePages 5 (by decide)
      (by decide)
      (by
        intro i repos h
        rcases i with _ | _ | _ | i
        · injection h with h; subst h; rfl
        · injection h with h; subst h; rfl
        · injection h with h; subst h; rfl
        · simp [ghThreePages] at h)).1⟩

/-! ## The run summary -/

namespace synccmd

theorem get_ne_nil_len (m : model.FailMap) (key : String) (h : m.get key ≠ []) :
    m.len ≠ 0 := by
  cases m with
  | nil => simp [model.FailMap.get, List.lookup] at h
  | cons b rest =>
    obtain ⟨k, v⟩ := b
    simp [model.FailMap.len, model.FailMap.keys]

/-- C9: for every list of repositories passed to `initTargetSync`, the run
metainfo attached to the returned context has `Total` equal to the length of
the list, and `summary` on that context reports exactly that total and hands
no error on; on a context without an attached run metainfo `summary` hands
`ErrMissingSyncRunMeta` to the error handler and emits no event. -/
theorem initTargetSync_total (names : TargetNames) (ctx : Context)
    (sourceProvider targetProvider : config.ProviderConfig)
    (repositories : List GitRepository) :
    (∃ m, Value (initTargetSync names ctx sourceProvider targetProvider repositories).1
        .SyncRunMetainfoKey = some (.syncRunMetainfo m) ∧ m.Total = repositories.length) ∧
      totalEvent repositories.length ∈
        (summary (initTargetSync names ctx sourceProvider targetProvider repositories).1
          sourceProvider).events ∧
      (∀ n, totalEvent n ∈
        (summary (initTargetSync names ctx sourceProvider targetProvider repositories).1
          sourceProvider).events → n = repositories.length) ∧
      (summary (initTargetSync names ctx sourceProvider targetProvider repositories).1
        sourceProvider).handled = [] ∧
      (∀ (ctx0 : Context) (p : config.ProviderConfig),
        (∀ m, Value ctx0 .SyncRunMetainfoKey ≠ some (.syncRunMetainfo m)) →
        summary ctx0 p = { events := [], handled := [ErrMissingSyncRunMeta] }) := by
  have hv : Value (initTargetSync names ctx sourceProvider targetProvider repositories).1
      .SyncRunMetainfoKey
      = some (.syncRunMetainfo (model.NewSyncRunMetainfo 0 sourceProvider.Domain
          targetProvider.ProviderType repositories.length)) := by
    simp [initTargetSync, Value, WithValue, List.lookup]
  refine ⟨⟨_, hv, rfl⟩, ?_, ?_, ?_, ?_⟩
  · simp [summary, hv, model.NewSyncRunMetainfo]
  · intro n hn
    simp only [summary, hv, model.NewSyncRunMetainfo, logFailures, model.FailMap.len,
      model.FailMap.keys, List.length_nil, if_true, List.append_nil, List.mem_cons,
      List.mem_singleton, List.not_mem_nil, or_false] at hn
    rcases hn with hn | hn
    · have := congrArg LogEvent.msg hn
      have hd := congrArg String.data this
      simp [totalEvent, String.data_append] at hd
    · have hmsg := congrArg LogEvent.msg hn
      have hd := congrArg String.data hmsg
      simp only [totalEvent, String.data_append] at hd
      have hd2 := List.append_cancel_left (List.append_cancel_right hd)
      have := target.fmtInt_zero_inj _ _ (String.ext hd2)
      exact_mod_cast this
  · simp [summary, hv]
  · intro ctx0 p hno
    unfold summary
    split
    · next m hm => exact absurd hm (hno m)
    · rfl

theorem initTargetSync_total_witness :
    totalEvent 2 ∈ (summary (initTargetSync targetNames [] userCfg groupCfg
        [⟨model.ProjectInfo.zero⟩, ⟨model.ProjectInfo.zero⟩]).1 userCfg).events ∧
      summary [] userCfg = { events := [], handled := [ErrMissingSyncRunMeta] } :=
  ⟨(initTargetSync_total targetNames [] userCfg groupCfg
      [⟨model.ProjectInfo.zero⟩, ⟨model.ProjectInfo.zero⟩]).2.1,
    (initTargetSync_total targetNames [] userCfg groupCfg
      [⟨model.ProjectInfo.zero⟩, ⟨model.ProjectInfo.zero⟩]).2.2.2.2 [] userCfg
      (by intro m h; cases h)⟩

/-- C10 (as stated, refuted): a run metainfo whose `Fail` map holds a non-empty
list under the category `push` makes `logFailures` emit nothing. -/
theorem logFailures_other_category_silent :
    metaPushFailed.Fail.get "push" = ["repo-a"] ∧ logFailures metaPushFailed = [] := by
  decide

/-- C10 (amended): for every run metainfo whose `Fail` map has a non-empty
repository list under `invalid` or under `uptodate`, `logFailures` emits at
least one record. -/
theorem logFailures_nonempty (m : model.SyncRunMetainfo)
    (h : m.Fail.get "invalid" ≠ [] ∨ m.Fail.get "uptodate" ≠ []) :
    logFailures m ≠ [] := by
  have hlen : m.Fail.len ≠ 0 := by
    rcases h with h | h
    · exact get_ne_nil_len _ _ h
    · exact get_ne_nil_len _ _ h
  unfold logFailures
  rw [if_neg hlen]
  rcases h with h | h
  · have hp : (m.Fail.get "invalid").length > 0 := List.length_pos.mpr h
    simp [hp]
  · have hp : (m.Fail.get "uptodate").length > 0 := List.length_pos.mpr h
    simp [hp]

theorem logFailures_nonempty_witness :
    (metaInvalid.Fail.get "invalid" ≠ [] ∨ metaInvalid.Fail.get "uptodate" ≠ []) ∧
      logFailures metaInvalid ≠ [] :=
  ⟨Or.inl (by decide), logFailures_nonempty metaInvalid (Or.inl (by decide))⟩

end synccmd

/-! ## Failure records, visibility and nil strings -/

namespace synccmd

theorem len_eq_zero (m : model.FailMap) (h : m.len = 0) : m = [] := by
  cases m with
  | nil => rfl
  | cons b rest =>
    obtain ⟨k, v⟩ := b
    simp [model.FailMap.len, model.FailMap.keys] at h

/-- C11: `logFailures` emits, for `invalid` and then for `uptodate`, one record
per category exactly when the list recorded under that category is non-empty,
with `count` equal to the length of the list and `repositories` equal to the
list in its recorded order; it emits nothing when the `Fail` map is empty. -/
theorem logFailures_records (m : model.SyncRunMetainfo) (total : Nat) :
    logFailures m
        = categoryRecord m "invalid" "skipped repositories due to invalid naming"
          ++ categoryRecord m "uptodate" "ignored up-to-date repositories" ∧
      ((categoryRecord m "invalid" "skipped repositories due to invalid naming").length
        = if m.Fail.get "invalid" = [] then 0 else 1) ∧
      ((categoryRecord m "uptodate" "ignored up-to-date repositories").length
        = if m.Fail.get "uptodate" = [] then 0 else 1) ∧
      logFailures { Total := total, Fail := [] } = [] := by
  refine ⟨?_, ?_, ?_, by simp [logFailures, model.FailMap.len, model.FailMap.keys]⟩
  · unfold logFailures
    by_cases hlen : m.Fail.len = 0
    · have h0 := len_eq_zero _ hlen
      simp [hlen, categoryRecord, h0, model.FailMap.get, List.lookup]
    · rw [if_neg hlen]
      congr 1
      · unfold categoryRecord
        cases h : m.Fail.get "invalid" with
        | nil => simp
        | cons a l => simp
      · unfold categoryRecord
        cases h : m.Fail.get "uptodate" with
        | nil => simp
        | cons a l => simp
  · unfold categoryRecord
    cases h : m.Fail.get "invalid" <;> simp
  · unfold categoryRecord
    cases h : m.Fail.get "uptodate" <;> simp

/-- The records for a map that lists `uptodate` before `invalid`: the record for
`invalid` still comes first, each with its count and its names in order. -/
theorem logFailures_both :
    logFailures metaBoth
      = [⟨"info", [("count", .int 2), ("repositories", .strs ["repo-b", "repo-a"])],
          "skipped repositories due to invalid naming"⟩,
         ⟨"info", [("count", .int 1), ("repositories", .strs ["repo-c"])],
          "ignored up-to-date repositories"⟩] := by
  decide

end synccmd

/-- C12: GitLab `getVisibility` maps every provider visibility value to one of
`public`, `private` and `internal`: these three map to themselves, and every
other value maps to `public`. -/
theorem getVisibility_range (vis : gitlab.VisibilityValue) :
    (gitlab.getVisibility vis = "public" ∨ gitlab.getVisibility vis = "private" ∨
        gitlab.getVisibility vis = "internal") ∧
      gitlab.getVisibility gitlab.PublicVisibility = "public" ∧
      gitlab.getVisibility gitlab.PrivateVisibility = "private" ∧
      gitlab.getVisibility gitlab.InternalVisibility = "internal" ∧
      (vis ≠ gitlab.PublicVisibility → vis ≠ gitlab.PrivateVisibility →
        vis ≠ gitlab.InternalVisibility → gitlab.getVisibility vis = "public") := by
  refine ⟨?_, by decide, by decide, by decide, ?_⟩
  · unfold gitlab.getVisibility
    split
    · exact Or.inl rfl
    · split
      · exact Or.inr (Or.inl rfl)
      · split
        · exact Or.inr (Or.inr rfl)
        · exact Or.inl rfl
  · intro h1 h2 h3
    simp [gitlab.getVisibility, h1, h2, h3]

theorem getVisibility_range_witness :
    ("secret" : gitlab.VisibilityValue) ≠ gitlab.PublicVisibility ∧
      gitlab.getVisibility "secret" = "public" :=
  ⟨by decide, (getVisibility_range "secret").2.2.2.2 (by decide) (by decide) (by decide)⟩

/-- C13 (the code at the failing input): for a nil pointer `getValueOrEmpty`
returns the text `N/A`, which is not the empty string; for a non-nil pointer it
returns the string pointed to. -/
theorem getValueOrEmpty_nil :
    github.getValueOrEmpty none = "N/A" ∧ github.getValueOrEmpty none ≠ "" ∧
      ∀ s : String, github.getValueOrEmpty (some s) = s := by
  refine ⟨rfl, by decide, fun s => rfl⟩

/-! ## The working directory of the archive target -/

namespace target

theorem stringsTrimSuffix_append (w suffix : String) :
    stringsTrimSuffix (w ++ suffix) suffix = w := by
  have h : suffix.data.isSuffixOf (w ++ suffix).data = true := by
    rw [List.isSuffixOf_iff_suffix, String.data_append]
    exact List.suffix_append _ _
  unfold stringsTrimSuffix
  rw [if_pos h]
  apply String.ext
  simp [String.data_append]

theorem getSourceDirPath_ok (mkdirAll : String → Option GoError) (opt : model.PushOption)
    (d : String) (h : getSourceDirPath mkdirAll opt = .ok d) :
    d = stringsTrimSuffix opt.Target ".tar.gz" := by
  unfold getSourceDirPath at h
  simp only at h
  split at h
  · cases h
  · injection h with h
    exact h.symm

/-- C14: for every target path that ends in `.tar.gz`, `getSourceDirPath`
returns, once the parent directory is there, the target with that one suffix
removed, so the working directory followed by `.tar.gz` is the target again;
and two distinct archive paths produced by `ArchiveTargetPath` never get the
same working directory. -/
theorem getSourceDirPath_workdir (mkdirAll : String → Option GoError) (workdir : String)
    (opt : model.PushOption) (htarget : opt.Target = workdir ++ ".tar.gz") :
    stringsTrimSuffix opt.Target ".tar.gz" = workdir ∧
      (mkdirAll (filepathDir workdir) = none → getSourceDirPath mkdirAll opt = .ok workdir) ∧
      (∀ d, getSourceDirPath mkdirAll opt = .ok d → d = workdir ∧ d ++ ".tar.gz" = opt.Target) ∧
      (∀ (name1 dir1 name2 dir2 d1 d2 : String) (now1 now2 : Time)
          (mk1 mk2 : String → Option GoError),
        ArchiveTargetPath name1 dir1 now1 ≠ ArchiveTargetPath name2 dir2 now2 →
        getSourceDirPath mk1 ⟨ArchiveTargetPath name1 dir1 now1⟩ = .ok d1 →
        getSourceDirPath mk2 ⟨ArchiveTargetPath name2 dir2 now2⟩ = .ok d2 →
        d1 ≠ d2) := by
  have htrim : stringsTrimSuffix opt.Target ".tar.gz" = workdir := by
    rw [htarget]
    exact stringsTrimSuffix_append workdir ".tar.gz"
  refine ⟨htrim, ?_, ?_, ?_⟩
  · intro hmk
    simp only [getSourceDirPath, htrim, hmk]
  · intro d hd
    have := getSourceDirPath_ok mkdirAll opt d hd
    rw [htrim] at this
    exact ⟨this, by rw [this, htarget]⟩
  · intro name1 dir1 name2 dir2 d1 d2 now1 now2 mk1 mk2 hne h1 h2 heq
    obtain ⟨Q1, hQ1⟩ := ArchiveTargetPath_eq name1 dir1
    obtain ⟨Q2, hQ2⟩ := ArchiveTargetPath_eq name2 dir2
    have e1 := getSourceDirPath_ok mk1 _ d1 h1
    have e2 := getSourceDirPath_ok mk2 _ d2 h2
    simp only at e1 e2
    rw [hQ1 now1, ← String.append_assoc, stringsTrimSuffix_append] at e1
    rw [hQ2 now2, ← String.append_assoc, stringsTrimSuffix_append] at e2
    apply hne
    rw [hQ1 now1, hQ2 now2, ← String.append_assoc, ← String.append_assoc, ← e1, ← e2, heq]

theorem getSourceDirPath_workdir_witness :
    (⟨"/backup/repo_20241027_025959_1729990799999.tar.gz"⟩ : model.PushOption).Target
        = "/backup/repo_20241027_025959_1729990799999" ++ ".tar.gz" ∧
      getSourceDirPath (fun _ => none) ⟨"/backup/repo_20241027_025959_1729990799999.tar.gz"⟩
        = .ok "/backup/repo_20241027_025959_1729990799999" :=
  ⟨by decide,
    (getSourceDirPath_workdir (fun _ => none) "/backup/repo_20241027_025959_1729990799999"
      ⟨"/backup/repo_20241027_025959_1729990799999.tar.gz"⟩ (by decide)).2.1 rfl⟩

end target

/-! ## Creating repositories -/

theorem foldEq_iff (a b : Char) : foldEq a b = true ↔ a.toLower = b.toLower := by
  unfold foldEq
  constructor
  · intro h
    rcases Bool.or_eq_true _ _ |>.mp h with h | h
    · rw [beq_iff_eq.mp h]
    · exact beq_iff_eq.mp h
  · intro h
    simp [h]

theorem equalFoldChars_iff (s : List Char) :
    ∀ t, equalFoldChars s t = true ↔ s.map Char.toLower = t.map Char.toLower := by
  induction s with
  | nil =>
    intro t
    cases t <;> simp [equalFoldChars]
  | cons a s ih =>
    intro t
    cases t with
    | nil => simp [equalFoldChars]
    | cons b t =>
      simp only [equalFoldChars, Bool.and_eq_true, foldEq_iff, ih t, List.map_cons,
        List.cons.injEq]

/-- The comparison against `private` is equality after lowering the ASCII
letters of the visibility. -/
theorem equalFold_private (visibility : String) :
    stringsEqualFold visibility "private" = true
      ↔ visibility.data.map Char.toLower = "private".data := by
  unfold stringsEqualFold
  rw [equalFoldChars_iff]
  have : ("private" : String).data.map Char.toLower = ("private" : String).data := by decide
  rw [this]

/-- C15 (the code at the failing input): on a fresh `ProjectService`, a call
with `Disabled = false` that follows a call with `Disabled = true` sends the
disabled feature flags of the earlier call, whereas the same call made alone
sends none; the two histories end with the same option and send different
options. -/
theorem createProject_keeps_disabled :
    github.optPlain.Disabled = false ∧
      (github.sentOptions github.createAlways groupCfg github.NewProjectOptionsBuilder
          [github.optDisabled, github.optPlain]).getLast?
        ≠ (github.sentOptions github.createAlways groupCfg github.NewProjectOptionsBuilder
          [github.optPlain]).getLast? ∧
      (github.sentOptions github.createAlways groupCfg github.NewProjectOptionsBuilder
          [github.optDisabled, github.optPlain]).getLast?.map (fun o => (o.HasIssues, o.HasWiki))
        = some (some false, some false) ∧
      (github.sentOptions github.createAlways groupCfg github.NewProjectOptionsBuilder
          [github.optPlain]).getLast?.map (fun o => (o.HasIssues, o.HasWiki))
        = some (none, none) := by
  decide

/-- C16: GitHub `basicOpts` sets `Private` to true if and only if the
visibility equals `private` ignoring case, and to false otherwise, as for
`internal` and the empty string; `Name`, `Description` and `DefaultBranch` are
the arguments unchanged and `AllowForking` is true. -/
theorem basicOpts_fields (p : github.ProjectOptionsBuilder)
    (visibility name description defaultBranch : String) :
    (p.basicOpts visibility name description defaultBranch).opts.Private
        = some (decide (visibility.data.map Char.toLower = "private".data)) ∧
      ((p.basicOpts visibility name description defaultBranch).opts.Private = some true
        ↔ visibility.data.map Char.toLower = "private".data) ∧
      (p.basicOpts "internal" name description defaultBranch).opts.Private = some false ∧
      (p.basicOpts "" name description defaultBranch).opts.Private = some false ∧
      (p.basicOpts "Private" name description defaultBranch).opts.Private = some true ∧
      (p.basicOpts visibility name description defaultBranch).opts.Name = some name ∧
      (p.basicOpts visibility name description defaultBranch).opts.Description
        = some description ∧
      (p.basicOpts visibility name description defaultBranch).opts.DefaultBranch
        = some defaultBranch ∧
      (p.basicOpts visibility name description defaultBranch).opts.AllowForking = some true := by
  have hp : (p.basicOpts visibility name description defaultBranch).opts.Private
      = some (decide (visibility.data.map Char.toLower = "private".data)) := by
    simp only [github.ProjectOptionsBuilder.basicOpts]
    by_cases h : stringsEqualFold visibility "private" = true
    · simp [h, (equalFold_private visibility).mp h]
    · have hn : ¬ visibility.data.map Char.toLower = "private".data :=
        fun e => h ((equalFold_private visibility).mpr e)
      simp [h, hn]
  refine ⟨hp, ?_, rfl, rfl, rfl, rfl, rfl, rfl, rfl⟩
  rw [hp]
  simp

/-- The parts of the namespace lookup that hold: for a user-scoped
configuration `getNamespaceID` returns 0 without error and `Create` sets no
`NamespaceID`; when the search finds no group `getNamespaceID` returns an error
and `Create` creates nothing. -/
theorem getNamespaceID_user_or_none (c : gitlab.CreateClient) (cfg : config.ProviderConfig)
    (opt : model.CreateOption) :
    (cfg.IsGroup = false →
        gitlab.getNamespaceID c cfg = .ok 0 ∧
        ∀ o ∈ (gitlab.Create c cfg opt).1, o.NamespaceID = none) ∧
      (cfg.IsGroup = true → c.ListGroups { Search := some cfg.Group } = .ok [] →
        (∃ e, gitlab.getNamespaceID c cfg = .error e) ∧
        (gitlab.Create c cfg opt).1 = [] ∧ (gitlab.Create c cfg opt).2 ≠ none) := by
  constructor
  · intro hg
    have h0 : gitlab.getNamespaceID c cfg = .ok 0 := by simp [gitlab.getNamespaceID, hg]
    refine ⟨h0, ?_⟩
    intro o ho
    simp only [gitlab.Create, h0] at ho
    split at ho <;> simp at ho <;> rw [ho]
  · intro hg hl
    have he : gitlab.getNamespaceID c cfg
        = .error (.new ("no group found with name: " ++ cfg.Group)) := by
      simp [gitlab.getNamespaceID, hg, hl]
    exact ⟨⟨_, he⟩, by simp [gitlab.Create, he], by simp [gitlab.Create, he]⟩

/-- C17 (the code at the failing input): for the group `acme`, when the search
answers with the group `acme-archive` (ID 7) before the group `acme` (ID 3),
`getNamespaceID` returns 7 without error, the ID of a group whose name is not
`acme`, and `Create` creates the project in that namespace. -/
theorem getNamespaceID_first_hit :
    groupCfg.Group = "acme" ∧
      gitlab.glTwoGroups.ListGroups { Search := some groupCfg.Group }
        = .ok [⟨7, "acme-archive", "acme-archive", "acme-archive"⟩,
               ⟨3, "acme", "acme", "acme"⟩] ∧
      gitlab.getNamespaceID gitlab.glTwoGroups groupCfg = .ok 7 ∧
      (gitlab.Create gitlab.glTwoGroups groupCfg gitlab.createSite).1.map
          (fun o => o.NamespaceID) = [some 7] ∧
      (gitlab.Create gitlab.glTwoGroups groupCfg gitlab.createSite).2 = none := by
  decide

end GitProviderSync
